import Mathlib

/-
Verification of the CLOB order book and settlement server.

Embedding conventions:
  - BTreeMap price maps become sorted association lists. The asks map is kept in
    ascending price order (head = ask_min, mirroring iter().next()); the bids map
    is kept in descending price order (head = bid_max, mirroring next_back()).
    Both are canonical finite-map representations; the code only reads the two
    extreme keys and does keyed insert/lookup/remove.
  - The HashMap structures (oid index, balances, order status) become association
    lists with in-place replacement on insert; only keyed operations are used.
  - u64 quantities become Nat. Guarded subtractions coincide with u64 subtraction.
    Unchecked additions (balance credits, maker filled_sz updates) carry an
    explicit mod 2 to the 64, matching wrapping u64 addition. The global oid
    counter is also reduced mod 2 to the 64 on increment.
  - Fallible code (unwrap panics, eyre errors) returns Option; none is a panic
    or an error return.
-/

namespace Clob

/-- Modulus of unsigned 64-bit arithmetic. -/
def U64MOD : Nat := 2 ^ 64

/-- The u64 maximum, used by ask_min as the empty-side sentinel. -/
def U64MAX : Nat := U64MOD - 1

/-- Order as in src/order.rs. -/
structure Order where
  is_buy : Bool
  limit_px : Nat
  sz : Nat
  oid : Nat
deriving DecidableEq, Repr

/-- OrderFill as in src/order.rs. -/
structure OrderFill where
  maker_oid : Nat
  taker_oid : Nat
  sz : Nat
deriving DecidableEq, Repr

/-- FillStatus as in src/order.rs; the 20-byte Address is modelled as Nat. -/
structure FillStatus where
  oid : Nat
  sz : Nat
  addr : Nat
  filled_sz : Nat
  fills : List OrderFill
deriving DecidableEq, Repr

/-- Keyed lookup in an association list (HashMap get / BTreeMap get). -/
def assocFind {α : Type} (k : Nat) : List (Nat × α) → Option α
  | [] => none
  | (k2, v) :: rest => if k2 = k then some v else assocFind k rest

/-- Keyed insert with in-place replacement (HashMap insert / BTreeMap entry). -/
def assocInsert {α : Type} (k : Nat) (v : α) : List (Nat × α) → List (Nat × α)
  | [] => [(k, v)]
  | (k2, v2) :: rest => if k2 = k then (k, v) :: rest else (k2, v2) :: assocInsert k v rest

/-- Keyed removal (HashMap remove / BTreeMap remove). -/
def assocErase {α : Type} (k : Nat) : List (Nat × α) → List (Nat × α)
  | [] => []
  | (k2, v2) :: rest => if k2 = k then rest else (k2, v2) :: assocErase k rest

/-- A price level: the FIFO vector of resting orders at one price. -/
abbrev Level := List Order

/-- OrderBook as in src/orderbook.rs. bids is sorted descending by price,
asks ascending, per the embedding conventions above. -/
structure OrderBook where
  bids : List (Nat × Level)
  asks : List (Nat × Level)
  oid_to_level : List (Nat × Nat)
deriving DecidableEq, Repr

/-- The empty order book (OrderBook::default()). -/
def emptyBook : OrderBook := ⟨[], [], []⟩

/-- fill_at_price_level from src/orderbook.rs. The Rust function takes
(level, amount) and returns (remaining_amount, fills), mutating the level in
place; here the mutated level is returned as the third component and the
amount parameter comes first for structural recursion. The loop counts a
prefix of makers with sz at most the running remaining amount as complete
fills, decrements the first larger maker in place, and drains the complete
prefix from the head. -/
def fill_at_price_level (amount : Nat) : Level → Nat × List Order × Level
  | [] => (amount, [], [])
  | o :: rest =>
    if o.sz ≤ amount then
      let r := fill_at_price_level (amount - o.sz) rest
      (r.1, o :: r.2.1, r.2.2)
    else
      (0, [], { o with sz := o.sz - amount } :: rest)

/-- bid_max from src/orderbook.rs: largest bid price, or 0 when no bids.
With bids stored descending, next_back() is the head. -/
def OrderBook.bid_max (book : OrderBook) : Nat :=
  match book.bids with
  | [] => 0
  | (px, _) :: _ => px

/-- ask_min from src/orderbook.rs: smallest ask price, or u64::MAX when no asks.
With asks stored ascending, next() is the head. -/
def OrderBook.ask_min (book : OrderBook) : Nat :=
  match book.asks with
  | [] => U64MAX
  | (px, _) :: _ => px

/-- Strict key order of the ask side (ascending list: earlier means smaller). -/
def askBefore (p q : Nat) : Bool := decide (p < q)

/-- Strict key order of the bid side (descending list: earlier means larger). -/
def bidBefore (p q : Nat) : Bool := decide (q < p)

/-- Insert an order at the tail of the level at px, creating the level at its
sorted position if absent: the entry(px).or_insert(Vec::new()) followed by
level.push(order) of enqueue_order. -/
def pushLevel (before : Nat → Nat → Bool) (px : Nat) (o : Order) :
    List (Nat × Level) → List (Nat × Level)
  | [] => [(px, [o])]
  | (p, lvl) :: rest =>
    if p = px then (p, lvl ++ [o]) :: rest
    else if before px p then (px, [o]) :: (p, lvl) :: rest
    else (p, lvl) :: pushLevel before px o rest

/-- enqueue_order from src/orderbook.rs: record oid in the OID index and append
the order to the tail of the level at its limit price on its own side. -/
def OrderBook.enqueue_order (book : OrderBook) (o : Order) : OrderBook :=
  let idx := assocInsert o.oid o.limit_px book.oid_to_level
  if o.is_buy then
    { book with bids := pushLevel bidBefore o.limit_px o book.bids, oid_to_level := idx }
  else
    { book with asks := pushLevel askBefore o.limit_px o book.asks, oid_to_level := idx }

/-- The matching loop of limit on one side. crosses px decides the loop guard
against the current best price (the head key); emptyCrosses is the guard value
against the empty-side sentinel, in which case the Rust code unwraps a missing
level and panics (none). Each iteration fills at the best level, removes it if
emptied, and re-reads the best price. When the fill leaves the level non-empty
the remaining amount is zero (a partially filled maker stops the walk), so the
Rust while-loop exits; the recursion stops there accordingly. -/
def sweepSide (crosses : Nat → Bool) (emptyCrosses : Bool) :
    Nat → List (Nat × Level) → Option (Nat × List Order × List (Nat × Level))
  | remaining, [] =>
    if 0 < remaining ∧ emptyCrosses = true then none else some (remaining, [], [])
  | remaining, (px, lvl) :: rest =>
    if 0 < remaining ∧ crosses px = true then
      let f := fill_at_price_level remaining lvl
      if f.2.2 = [] then
        match sweepSide crosses emptyCrosses f.1 rest with
        | none => none
        | some (r2, fs2, rest2) => some (r2, f.2.1 ++ fs2, rest2)
      else some (f.1, f.2.1, (px, f.2.2) :: rest)
    else some (remaining, [], (px, lvl) :: rest)

/-- limit from src/orderbook.rs. A buy consumes ask levels while
limit_px is at least ask_min; a sell consumes bid levels while limit_px is at
most bid_max. If a positive amount remains the incoming order is enqueued (the
code enqueues the order with its original sz field, not the residual); otherwise
the order itself is pushed onto the end of the returned fill list. none models
the panic on unwrapping the missing best level when the guard holds against an
empty side (a buy priced at u64::MAX or a sell priced at 0). -/
def OrderBook.limit (book : OrderBook) (order : Order) : Option (List Order × OrderBook) :=
  if order.is_buy then
    match sweepSide (fun p => decide (p ≤ order.limit_px)) (decide (U64MAX ≤ order.limit_px))
        order.sz book.asks with
    | none => none
    | some (remaining, fills, asks2) =>
      let book2 : OrderBook := { book with asks := asks2 }
      if 0 < remaining then some (fills, book2.enqueue_order order)
      else some (fills ++ [order], book2)
  else
    match sweepSide (fun p => decide (order.limit_px ≤ p)) (decide (order.limit_px ≤ 0))
        order.sz book.bids with
    | none => none
    | some (remaining, fills, bids2) =>
      let book2 : OrderBook := { book with bids := bids2 }
      if 0 < remaining then some (fills, book2.enqueue_order order)
      else some (fills ++ [order], book2)

/-- The level.retain(|order| order.oid != oid) of cancel. -/
def retainLevel (oid : Nat) (lvl : Level) : Level :=
  lvl.filter (fun o => o.oid != oid)

/-- Apply a function to the level stored at key px, as through get_mut. -/
def mapLevel (px : Nat) (f : Level → Level) (side : List (Nat × Level)) :
    List (Nat × Level) :=
  side.map (fun pl => if pl.1 = px then (pl.1, f pl.2) else pl)

/-- cancel from src/orderbook.rs: look the oid up in the OID index, retain away
the order from the level at that price (checking the bid map first, then the ask
map), then drop the index entry. none is the eyre error (oid not found, or the
indexed price present in neither map). Note: an emptied level is not removed. -/
def OrderBook.cancel (book : OrderBook) (oid : Nat) : Option OrderBook :=
  match assocFind oid book.oid_to_level with
  | none => none
  | some px =>
    if (assocFind px book.bids).isSome then
      some { book with bids := mapLevel px (retainLevel oid) book.bids,
                       oid_to_level := assocErase oid book.oid_to_level }
    else if (assocFind px book.asks).isSome then
      some { book with asks := mapLevel px (retainLevel oid) book.asks,
                       oid_to_level := assocErase oid book.oid_to_level }
    else none

/-- UserBalance as in src/server.rs. -/
structure UserBalance where
  a : Nat
  b : Nat
deriving DecidableEq, Repr

/-- The four shared resources of src/server.rs, with the mutexes erased
(the model is the sequential interleaving of whole handlers). -/
structure SharedState where
  balances : List (Nat × UserBalance)
  book : OrderBook
  order_status : List (Nat × FillStatus)
  oid : Nat
deriving DecidableEq, Repr

/-- SharedState::default(): all four resources empty. -/
def initialState : SharedState := ⟨[], emptyBook, [], 0⟩

/-- PlaceOrderResponse as in src/server.rs. -/
structure PlaceOrderResponse where
  success : Bool
  status : Option FillStatus
deriving DecidableEq, Repr

/-- WithdrawResponse as in src/server.rs. -/
structure WithdrawResponse where
  success : Bool
deriving DecidableEq, Repr

/-- DepositResponse as in src/server.rs. -/
structure DepositResponse where
  success : Bool
deriving DecidableEq, Repr

/-- Modelled from the spec: the per-level walk of section 4.1 steps 2b and 2c,
reporting Fill records. src/server.rs destructures the book call as
(remaining_amount, fills) with fills carrying maker_oid, taker_oid and sz, a
reporting signature that src/orderbook.rs (which returns the consumed maker
Orders themselves) does not provide; the Fill reporting is therefore modelled
from the spec. One Fill with sz equal to the full maker size is emitted per
completely consumed maker; a maker larger than the remaining amount is
decremented in place and, when the remaining amount is positive, a Fill of
exactly that amount is emitted for it. -/
def fillLevelR (tid : Nat) (amount : Nat) : Level → Nat × List OrderFill × Level
  | [] => (amount, [], [])
  | o :: rest =>
    if o.sz ≤ amount then
      let r := fillLevelR tid (amount - o.sz) rest
      (r.1, OrderFill.mk o.oid tid o.sz :: r.2.1, r.2.2)
    else if 0 < amount then
      (0, [OrderFill.mk o.oid tid amount], { o with sz := o.sz - amount } :: rest)
    else
      (0, [], { o with sz := o.sz - amount } :: rest)

/-- Modelled from the spec: the matching loop of section 4.1 step 2 with Fill
reporting, for the server call site. The loop guard is the one the spec states
(remaining positive, side non-empty, best price crosses), so this variant is
total. Book effects per level match the source sweep: the complete prefix is
drained, an emptied level is removed. -/
def sweepSideR (tid : Nat) (crosses : Nat → Bool) :
    Nat → List (Nat × Level) → Nat × List OrderFill × List (Nat × Level)
  | remaining, [] => (remaining, [], [])
  | remaining, (px, lvl) :: rest =>
    if 0 < remaining ∧ crosses px = true then
      let f := fillLevelR tid remaining lvl
      if f.2.2 = [] then
        let g := sweepSideR tid crosses f.1 rest
        (g.1, f.2.1 ++ g.2.1, g.2.2)
      else (f.1, f.2.1, (px, f.2.2) :: rest)
    else (remaining, [], (px, lvl) :: rest)

/-- Modelled from the spec: the (remaining_amount, fills) limit variant that
src/server.rs calls. The fill reporting comes from the spec (sweepSideR); the
disposition of the residual comes from the source book code: as in
src/orderbook.rs, a positive residual is enqueued via enqueue_order with the
order keeping its original sz field (the source omits the assignment of the
residual to order.sz that spec section 4.1 step 3 prescribes). -/
def serverLimit (book : OrderBook) (o : Order) : Nat × List OrderFill × OrderBook :=
  if o.is_buy then
    let s := sweepSideR o.oid (fun p => decide (p ≤ o.limit_px)) o.sz book.asks
    let book2 : OrderBook := { book with asks := s.2.2 }
    (s.1, s.2.1, if 0 < s.1 then book2.enqueue_order o else book2)
  else
    let s := sweepSideR o.oid (fun p => decide (o.limit_px ≤ p)) o.sz book.bids
    let book2 : OrderBook := { book with bids := s.2.2 }
    (s.1, s.2.1, if 0 < s.1 then book2.enqueue_order o else book2)

/-- deposit from src/server.rs: balances.insert(addr, amounts), replacing any
existing entry, and respond success. -/
def deposit (s : SharedState) (addr : Nat) (amounts : UserBalance) :
    SharedState × DepositResponse :=
  ({ s with balances := assocInsert addr amounts s.balances }, ⟨true⟩)

/-- withdraw from src/server.rs: balances.get_mut(addr).unwrap() (none on a
missing account), then either refuse on insufficient funds with no mutation or
debit both assets. -/
def withdraw (s : SharedState) (addr : Nat) (amounts : UserBalance) :
    Option (SharedState × WithdrawResponse) :=
  match assocFind addr s.balances with
  | none => none
  | some bal =>
    if bal.a < amounts.a ∨ bal.b < amounts.b then
      some (s, ⟨false⟩)
    else
      some ({ s with
              balances := assocInsert addr ⟨bal.a - amounts.a, bal.b - amounts.b⟩ s.balances },
            ⟨true⟩)

/-- The maker settlement loop of place_order in src/server.rs: for each fill,
look up the maker FillStatus (unwrap: none on a missing record), bump its
filled_sz, push the fill, and credit the maker balance (unwrap: none on a
missing account) on asset b for a taker buy and asset a for a taker sell. -/
def settleMakers (tbuy : Bool) :
    List OrderFill → List (Nat × UserBalance) → List (Nat × FillStatus) →
    Option (List (Nat × UserBalance) × List (Nat × FillStatus))
  | [], balances, order_status => some (balances, order_status)
  | fill :: rest, balances, order_status =>
    match assocFind fill.maker_oid order_status with
    | none => none
    | some ms =>
      let ms2 : FillStatus :=
        { ms with filled_sz := (ms.filled_sz + fill.sz) % U64MOD, fills := ms.fills ++ [fill] }
      let order_status2 := assocInsert fill.maker_oid ms2 order_status
      match assocFind ms.addr balances with
      | none => none
      | some mb =>
        let mb2 : UserBalance :=
          if tbuy then { mb with b := (mb.b + fill.sz) % U64MOD }
          else { mb with a := (mb.a + fill.sz) % U64MOD }
        settleMakers tbuy rest (assocInsert ms.addr mb2 balances) order_status2

/-- place_order from src/server.rs: unwrap the taker balance (none on a missing
account); refuse with success false and no mutation when the spent side is
short; otherwise allocate the oid, match through the (remaining, fills) limit
call, settle the taker by debiting the full order size from the spent side and
crediting the filled size to the receive side, run the maker settlement loop,
and insert the taker FillStatus. -/
def place_order (s : SharedState) (addr : Nat) (tbuy : Bool) (limit_px sz : Nat) :
    Option (SharedState × PlaceOrderResponse) :=
  match assocFind addr s.balances with
  | none => none
  | some bal =>
    if (tbuy && decide (bal.b < sz)) || (!tbuy && decide (bal.a < sz)) then
      some (s, ⟨false, none⟩)
    else
      let order : Order := ⟨tbuy, limit_px, sz, s.oid⟩
      let lr := serverLimit s.book order
      let remaining := lr.1
      let fills := lr.2.1
      let book2 := lr.2.2
      let fill_sz := sz - remaining
      let bal2 : UserBalance :=
        if tbuy then ⟨(bal.a + fill_sz) % U64MOD, bal.b - sz⟩
        else ⟨bal.a - sz, (bal.b + fill_sz) % U64MOD⟩
      let balances1 := assocInsert addr bal2 s.balances
      match settleMakers tbuy fills balances1 s.order_status with
      | none => none
      | some (balances2, order_status2) =>
        let fill_status : FillStatus := ⟨s.oid, sz, addr, fill_sz, fills⟩
        some ({ balances := balances2, book := book2,
                order_status := assocInsert s.oid fill_status order_status2,
                oid := (s.oid + 1) % U64MOD },
              ⟨true, some fill_status⟩)

/-- The opposite side a taker consumes: asks for a buy, bids for a sell, listed
best price first (price-time priority order of its levels). -/
def oppSide (book : OrderBook) (o : Order) : List (Nat × Level) :=
  if o.is_buy then book.asks else book.bids

/-- The taker's own side: bids for a buy, asks for a sell. -/
def sameSide (book : OrderBook) (o : Order) : List (Nat × Level) :=
  if o.is_buy then book.bids else book.asks

/-- The crossing test of the matching loop, against one opposite level price. -/
def crossFn (o : Order) : Nat → Bool :=
  fun p => if o.is_buy then decide (p ≤ o.limit_px) else decide (o.limit_px ≤ p)

/-- The crossing test against the empty-side sentinel price. -/
def emptyCrossFn (o : Order) : Bool :=
  if o.is_buy then decide (U64MAX ≤ o.limit_px) else decide (o.limit_px ≤ 0)

/-- The sorted-position test of the taker's own side. -/
def beforeFn (o : Order) : Nat → Nat → Bool :=
  if o.is_buy then bidBefore else askBefore

/-- A side book flattened to the sequence of (price, order) pairs in
price-time priority order: levels as stored (best first), each level head
(oldest) first. -/
def flattenPx (side : List (Nat × Level)) : List (Nat × Order) :=
  side.flatMap (fun pl => pl.2.map (fun o => (pl.1, o)))

/-- A side book flattened to its orders in price-time priority order. -/
def flattenOrders (side : List (Nat × Level)) : List Order :=
  side.flatMap (fun pl => pl.2)

/-- Modelled from the spec: the reference consumer the claim describes. It
walks the priority-ordered queue of resting (price, order) pairs, consuming
order after order while the remaining size is positive and the price still
crosses; a maker at most as large as the remaining size is consumed whole, a
larger one is decremented in place and ends the walk. -/
def refConsume (crosses : Nat → Bool) :
    Nat → List (Nat × Order) → Nat × List (Nat × Order) × List (Nat × Order)
  | r, [] => (r, [], [])
  | r, (p, o) :: q =>
    if 0 < r ∧ crosses p = true then
      if o.sz ≤ r then
        let t := refConsume crosses (r - o.sz) q
        (t.1, (p, o) :: t.2.1, t.2.2)
      else (0, [], (p, { o with sz := o.sz - r }) :: q)
    else (r, [], (p, o) :: q)

/-- Keys of a side book are strictly sorted by the given order. -/
def SortedSide (before : Nat → Nat → Bool) (side : List (Nat × Level)) : Prop :=
  (side.map Prod.fst).Pairwise (fun p q => before p q = true)

/-- Every stored level holds at least one order. -/
def PosLevels (side : List (Nat × Level)) : Prop :=
  ∀ pl ∈ side, pl.2 ≠ []

/-- Every resting order has positive size. -/
def PosSizes (side : List (Nat × Level)) : Prop :=
  ∀ pl ∈ side, ∀ o ∈ pl.2, 0 < o.sz

/-- Spec section 8 well-formedness of a book: both sides sorted (bids
descending, asks ascending), no empty level stored, all sizes positive. -/
def OrderBook.WF (book : OrderBook) : Prop :=
  SortedSide bidBefore book.bids ∧ SortedSide askBefore book.asks ∧
    PosLevels book.bids ∧ PosLevels book.asks ∧
    PosSizes book.bids ∧ PosSizes book.asks

/-- Both sides of the book store no empty level. -/
def LevelsNonEmpty (book : OrderBook) : Prop :=
  PosLevels book.bids ∧ PosLevels book.asks

instance decSortedSide (before : Nat → Nat → Bool) (side : List (Nat × Level)) :
    Decidable (SortedSide before side) :=
  inferInstanceAs (Decidable ((side.map Prod.fst).Pairwise (fun p q => before p q = true)))

instance decPosLevels (side : List (Nat × Level)) : Decidable (PosLevels side) :=
  inferInstanceAs (Decidable (∀ pl ∈ side, pl.2 ≠ []))

instance decPosSizes (side : List (Nat × Level)) : Decidable (PosSizes side) :=
  inferInstanceAs (Decidable (∀ pl ∈ side, ∀ o ∈ pl.2, 0 < o.sz))

instance decWF (book : OrderBook) : Decidable book.WF :=
  inferInstanceAs (Decidable (SortedSide bidBefore book.bids ∧ SortedSide askBefore book.asks ∧
    PosLevels book.bids ∧ PosLevels book.asks ∧ PosSizes book.bids ∧ PosSizes book.asks))

instance decLevelsNonEmpty (book : OrderBook) : Decidable (LevelsNonEmpty book) :=
  inferInstanceAs (Decidable (PosLevels book.bids ∧ PosLevels book.asks))

/-- The owning address of the maker a fill refers to, read from the order
status registry (maker settlement joins through the registry this way). -/
def makerAddr (st : List (Nat × FillStatus)) (f : OrderFill) : Option Nat :=
  (assocFind f.maker_oid st).map FillStatus.addr

/-- Total size credited to account x by the maker settlement loop for a fill
list: the sum of fill sizes whose maker record is owned by x. -/
def makerCredit (st : List (Nat × FillStatus)) (fills : List OrderFill) (x : Nat) : Nat :=
  (fills.filter (fun f => makerAddr st f = some x)).foldr (fun f acc => f.sz + acc) 0

/-- State after depositing (a 0, b 100) for account 1 and (a 100, b 0) for
account 2, for the C3 scenario. -/
def c3Deposited : SharedState := (deposit (deposit initialState 1 ⟨0, 100⟩).1 2 ⟨100, 0⟩).1

/-- The C3 scenario: account 2 rests a sell of size 5 at price 10; account 1
sends a buy of size 10 at price 10, which fills 5 and rests with its original
size 10 (the source does not assign the residual); account 2 then sends a sell
of size 10 at price 10, which consumes the rested buy in full. -/
def c3Final : Option SharedState :=
  ((place_order c3Deposited 2 false 10 5).map (fun r => r.1)).bind fun s3 =>
    ((place_order s3 1 true 10 10).map (fun r => r.1)).bind fun s4 =>
      (place_order s4 2 false 10 10).map (fun r => r.1)

/-- The status record of the partially-filled-then-rested buy order (oid 1)
at the end of the C3 scenario. -/
def c3Record : Option FillStatus :=
  c3Final.bind (fun s => assocFind 1 s.order_status)

/-! Association list lemmas. -/

theorem assocFind_insert_self {α : Type} (k : Nat) (v : α) (l : List (Nat × α)) :
    assocFind k (assocInsert k v l) = some v := by
  induction l with
  | nil => simp [assocInsert, assocFind]
  | cons hd t ih =>
    obtain ⟨k2, v2⟩ := hd
    by_cases hk : k2 = k
    · simp [assocInsert, hk, assocFind]
    · simp [assocInsert, hk, assocFind, ih]

theorem assocFind_insert_ne {α : Type} (kq k : Nat) (v : α) (l : List (Nat × α))
    (hne : kq ≠ k) : assocFind kq (assocInsert k v l) = assocFind kq l := by
  have hke : ¬ k = kq := fun h => hne h.symm
  induction l with
  | nil => simp [assocInsert, assocFind, hke]
  | cons hd t ih =>
    obtain ⟨k2, v2⟩ := hd
    by_cases hk : k2 = k
    · subst hk
      simp [assocInsert, assocFind, hke]
    · simp [assocInsert, hk, assocFind, ih]

theorem assocErase_insert_fresh {α : Type} (k : Nat) (v : α) (l : List (Nat × α))
    (habs : assocFind k l = none) : assocErase k (assocInsert k v l) = l := by
  induction l with
  | nil => simp [assocInsert, assocErase]
  | cons hd t ih =>
    obtain ⟨k2, v2⟩ := hd
    by_cases hk : k2 = k
    · simp [assocFind, hk] at habs
    · simp [assocFind, hk] at habs
      simp [assocInsert, hk, assocErase, ih habs]

theorem assocFind_map_addr (st : List (Nat × FillStatus)) (k : Nat) (ms2 : FillStatus)
    (hship : (assocFind k st).map FillStatus.addr = some ms2.addr) (kq : Nat) :
    (assocFind kq (assocInsert k ms2 st)).map FillStatus.addr =
      (assocFind kq st).map FillStatus.addr := by
  by_cases hk : kq = k
  · subst hk
    rw [assocFind_insert_self]
    simp [hship]
  · rw [assocFind_insert_ne kq k ms2 st hk]

/-! fill_at_price_level lemmas. -/

theorem fill_fills_sublist (amount : Nat) (lvl : Level) :
    List.Sublist (fill_at_price_level amount lvl).2.1 lvl := by
  induction lvl generalizing amount with
  | nil => simp [fill_at_price_level]
  | cons o rest ih =>
    by_cases h : o.sz ≤ amount
    · simpa [fill_at_price_level, h] using (ih (amount - o.sz)).cons₂ o
    · simp [fill_at_price_level, h]

/-! Correspondence between the source sweep and the reference consumer. -/

theorem refConsume_level (crosses : Nat → Bool) (p : Nat) (hc : crosses p = true)
    (lvl : Level) (hpos : ∀ o ∈ lvl, 0 < o.sz) (amount : Nat) :
    refConsume crosses amount (lvl.map (fun o => (p, o))) =
      ((fill_at_price_level amount lvl).1,
       (fill_at_price_level amount lvl).2.1.map (fun o => (p, o)),
       (fill_at_price_level amount lvl).2.2.map (fun o => (p, o))) := by
  induction lvl generalizing amount with
  | nil => simp [refConsume, fill_at_price_level]
  | cons o rest ih =>
    have hop : 0 < o.sz := hpos o (by simp)
    by_cases h : o.sz ≤ amount
    · have ha : 0 < amount := lt_of_lt_of_le hop h
      have ihr := ih (fun x hx => hpos x (List.mem_cons_of_mem o hx)) (amount - o.sz)
      simp [refConsume, fill_at_price_level, h, hc, ha, ihr]
    · by_cases ha : 0 < amount
      · simp [refConsume, fill_at_price_level, h, hc, ha]
      · have ha0 : amount = 0 := Nat.eq_zero_of_not_pos ha
        subst ha0
        cases o with
        | mk ib px sz oid => simp [refConsume, fill_at_price_level, h]

theorem refConsume_append (crosses : Nat → Bool) (q1 q2 : List (Nat × Order)) (r : Nat) :
    refConsume crosses r (q1 ++ q2) =
      (if (refConsume crosses r q1).2.2 = [] then
        ((refConsume crosses (refConsume crosses r q1).1 q2).1,
         (refConsume crosses r q1).2.1 ++
           (refConsume crosses (refConsume crosses r q1).1 q2).2.1,
         (refConsume crosses (refConsume crosses r q1).1 q2).2.2)
      else ((refConsume crosses r q1).1, (refConsume crosses r q1).2.1,
            (refConsume crosses r q1).2.2 ++ q2)) := by
  induction q1 generalizing r with
  | nil => simp [refConsume]
  | cons po q1 ih =>
    obtain ⟨p, o⟩ := po
    by_cases hg : 0 < r ∧ crosses p = true
    · by_cases hsz : o.sz ≤ r
      · simp only [List.cons_append, refConsume, hg, if_true, hsz, and_self, ite_true,
          if_pos, List.append_eq]
        rw [ih (r - o.sz)]
        by_cases ht : (refConsume crosses (r - o.sz) q1).2.2 = [] <;> simp [ht]
      · simp [refConsume, hg, hsz]
    · simp [refConsume, hg]

theorem sweepSide_exists (crosses : Nat → Bool) (side : List (Nat × Level)) (r : Nat) :
    ∃ res, sweepSide crosses false r side = some res := by
  induction side generalizing r with
  | nil => exact ⟨(r, [], []), by simp [sweepSide]⟩
  | cons pl rest ih =>
    obtain ⟨px, lvl⟩ := pl
    by_cases hg : 0 < r ∧ crosses px = true
    · by_cases he : (fill_at_price_level r lvl).2.2 = []
      · obtain ⟨res2, hres2⟩ := ih (fill_at_price_level r lvl).1
        exact ⟨(res2.1, (fill_at_price_level r lvl).2.1 ++ res2.2.1, res2.2.2), by
          simp [sweepSide, hg, he, hres2]⟩
      · exact ⟨((fill_at_price_level r lvl).1, (fill_at_price_level r lvl).2.1,
          (px, (fill_at_price_level r lvl).2.2) :: rest), by simp [sweepSide, hg, he]⟩
    · exact ⟨(r, [], (px, lvl) :: rest), by simp [sweepSide, hg]⟩

theorem sweepSide_ref (crosses : Nat → Bool) (ec : Bool) (side : List (Nat × Level))
    (hne : PosLevels side) (hpos : PosSizes side) (r : Nat)
    (res : Nat × List Order × List (Nat × Level))
    (h : sweepSide crosses ec r side = some res) :
    ∃ cpx, refConsume crosses r (flattenPx side) = (res.1, cpx, flattenPx res.2.2) ∧
      res.2.1 = cpx.map Prod.snd := by
  induction side generalizing r res with
  | nil =>
    rw [sweepSide] at h
    split at h
    · exact absurd h (by simp)
    · obtain rfl : (r, ([] : List Order), ([] : List (Nat × Level))) = res :=
        Option.some.inj h
      exact ⟨[], by simp [refConsume, flattenPx], by simp⟩
  | cons pl rest ih =>
    obtain ⟨px, lvl⟩ := pl
    have hlvlne : lvl ≠ [] := hne (px, lvl) (by simp)
    have hlvlpos : ∀ o ∈ lvl, 0 < o.sz := fun o ho => hpos (px, lvl) (by simp) o ho
    have hneR : PosLevels rest := fun q hq => hne q (List.mem_cons_of_mem _ hq)
    have hposR : PosSizes rest := fun q hq => hpos q (List.mem_cons_of_mem _ hq)
    have hflat : flattenPx ((px, lvl) :: rest) =
        lvl.map (fun o => (px, o)) ++ flattenPx rest := by
      simp [flattenPx]
    by_cases hg : 0 < r ∧ crosses px = true
    · have hlem := refConsume_level crosses px hg.2 lvl hlvlpos r
      by_cases he : (fill_at_price_level r lvl).2.2 = []
      · simp only [sweepSide, hg, and_self, if_true, he, ite_true] at h
        cases hs : sweepSide crosses ec (fill_at_price_level r lvl).1 rest with
        | none => rw [hs] at h; exact absurd h (by simp)
        | some res2 =>
          rw [hs] at h
          obtain rfl : (res2.1, (fill_at_price_level r lvl).2.1 ++ res2.2.1, res2.2.2) = res := by
            obtain ⟨r2, fs2, rest2⟩ := res2
            exact Option.some.inj h
          obtain ⟨cpx2, href2, hmap2⟩ := ih hneR hposR _ res2 hs
          refine ⟨(fill_at_price_level r lvl).2.1.map (fun o => (px, o)) ++ cpx2, ?_, ?_⟩
          · rw [hflat, refConsume_append, hlem]
            simp [he, href2]
          · simp [hmap2]
      · simp only [sweepSide, hg, and_self, if_true, he, ite_false] at h
        obtain rfl : ((fill_at_price_level r lvl).1, (fill_at_price_level r lvl).2.1,
            (px, (fill_at_price_level r lvl).2.2) :: rest) = res := Option.some.inj h
        refine ⟨(fill_at_price_level r lvl).2.1.map (fun o => (px, o)), ?_, ?_⟩
        · rw [hflat, refConsume_append, hlem]
          have hmapne : (fill_at_price_level r lvl).2.2.map (fun o => (px, o)) ≠ [] := by
            simpa using he
          simp [hmapne, flattenPx]
        · simp
    · simp only [sweepSide, hg, if_false] at h
      obtain ⟨o0, lvl0, rfl⟩ := List.exists_cons_of_ne_nil hlvlne
      obtain rfl : (r, ([] : List Order), (px, o0 :: lvl0) :: rest) = res :=
        Option.some.inj h
      refine ⟨[], ?_, by simp⟩
      rw [hflat]
      simp [refConsume, hg]

theorem sweepSide_consumed_sublist (crosses : Nat → Bool) (ec : Bool)
    (side : List (Nat × Level)) (r : Nat) (res : Nat × List Order × List (Nat × Level))
    (h : sweepSide crosses ec r side = some res) :
    List.Sublist res.2.1 (flattenOrders side) := by
  induction side generalizing r res with
  | nil =>
    rw [sweepSide] at h
    split at h
    · exact absurd h (by simp)
    · obtain rfl : (r, ([] : List Order), ([] : List (Nat × Level))) = res :=
        Option.some.inj h
      simp
  | cons pl rest ih =>
    obtain ⟨px, lvl⟩ := pl
    have hflat : flattenOrders ((px, lvl) :: rest) = lvl ++ flattenOrders rest := by
      simp [flattenOrders]
    by_cases hg : 0 < r ∧ crosses px = true
    · by_cases he : (fill_at_price_level r lvl).2.2 = []
      · simp only [sweepSide, hg, and_self, if_true, he, ite_true] at h
        cases hs : sweepSide crosses ec (fill_at_price_level r lvl).1 rest with
        | none => rw [hs] at h; exact absurd h (by simp)
        | some res2 =>
          rw [hs] at h
          obtain rfl : (res2.1, (fill_at_price_level r lvl).2.1 ++ res2.2.1, res2.2.2) = res := by
            obtain ⟨r2, fs2, rest2⟩ := res2
            exact Option.some.inj h
          rw [hflat]
          exact List.Sublist.append (fill_fills_sublist r lvl) (ih _ res2 hs)
      · simp only [sweepSide, hg, and_self, if_true, he, ite_false] at h
        obtain rfl : ((fill_at_price_level r lvl).1, (fill_at_price_level r lvl).2.1,
            (px, (fill_at_price_level r lvl).2.2) :: rest) = res := Option.some.inj h
        rw [hflat]
        exact (fill_fills_sublist r lvl).trans (List.sublist_append_left lvl _)
    · simp only [sweepSide, hg, if_false] at h
      obtain rfl : (r, ([] : List Order), (px, lvl) :: rest) = res := Option.some.inj h
      simp

theorem sweepSide_posLevels (crosses : Nat → Bool) (ec : Bool)
    (side : List (Nat × Level)) (r : Nat) (res : Nat × List Order × List (Nat × Level))
    (h : sweepSide crosses ec r side = some res) (hp : PosLevels side) :
    PosLevels res.2.2 := by
  induction side generalizing r res with
  | nil =>
    rw [sweepSide] at h
    split at h
    · exact absurd h (by simp)
    · obtain rfl : (r, ([] : List Order), ([] : List (Nat × Level))) = res :=
        Option.some.inj h
      intro q hq
      simp at hq
  | cons pl rest ih =>
    obtain ⟨px, lvl⟩ := pl
    have hpR : PosLevels rest := fun q hq => hp q (List.mem_cons_of_mem _ hq)
    by_cases hg : 0 < r ∧ crosses px = true
    · by_cases he : (fill_at_price_level r lvl).2.2 = []
      · simp only [sweepSide, hg, and_self, if_true, he, ite_true] at h
        cases hs : sweepSide crosses ec (fill_at_price_level r lvl).1 rest with
        | none => rw [hs] at h; exact absurd h (by simp)
        | some res2 =>
          rw [hs] at h
          obtain rfl : (res2.1, (fill_at_price_level r lvl).2.1 ++ res2.2.1, res2.2.2) = res := by
            obtain ⟨r2, fs2, rest2⟩ := res2
            exact Option.some.inj h
          exact ih _ res2 hs hpR
      · simp only [sweepSide, hg, and_self, if_true, he, ite_false] at h
        obtain rfl : ((fill_at_price_level r lvl).1, (fill_at_price_level r lvl).2.1,
            (px, (fill_at_price_level r lvl).2.2) :: rest) = res := Option.some.inj h
        intro q hq
        rcases List.mem_cons.mp hq with hq1 | hq2
        · rw [hq1]
          exact he
        · exact hpR q hq2
    · simp only [sweepSide, hg, if_false] at h
      obtain rfl : (r, ([] : List Order), (px, lvl) :: rest) = res := Option.some.inj h
      exact hp

theorem sweepSide_head_noncross (crosses : Nat → Bool) (ec : Bool) (r px : Nat)
    (lvl : Level) (rest : List (Nat × Level)) (hc : crosses px = false) :
    sweepSide crosses ec r ((px, lvl) :: rest) = some (r, [], (px, lvl) :: rest) := by
  simp [sweepSide, hc]

theorem sweepSide_nil_noec (crosses : Nat → Bool) (r : Nat) :
    sweepSide crosses false r [] = some (r, [], []) := by
  simp [sweepSide]

theorem pushLevel_posLevels (before : Nat → Nat → Bool) (px : Nat) (o : Order)
    (side : List (Nat × Level)) (hp : PosLevels side) :
    PosLevels (pushLevel before px o side) := by
  induction side with
  | nil =>
    intro q hq
    simp [pushLevel] at hq
    simp [hq]
  | cons pl rest ih =>
    obtain ⟨p, lvl⟩ := pl
    have hpR : PosLevels rest := fun q hq => hp q (List.mem_cons_of_mem _ hq)
    intro q hq
    by_cases hpx : p = px
    · simp only [pushLevel, hpx, if_true, ite_true] at hq
      rcases List.mem_cons.mp hq with hq1 | hq2
      · rw [hq1]
        simp
      · exact hpR q hq2
    · by_cases hb : before px p = true
      · simp only [pushLevel, hpx, ite_false, hb, ite_true] at hq
        rcases List.mem_cons.mp hq with hq1 | hq2
        · rw [hq1]
          simp
        · exact hp q hq2
      · simp only [pushLevel, hpx, ite_false, hb] at hq
        rcases List.mem_cons.mp hq with hq1 | hq2
        · rw [hq1]
          exact hp (p, lvl) (by simp)
        · exact ih hpR q hq2

theorem enqueue_posLevels (book : OrderBook) (o : Order) (h : LevelsNonEmpty book) :
    LevelsNonEmpty (book.enqueue_order o) := by
  obtain ⟨hb, ha⟩ := h
  by_cases hbuy : o.is_buy = true
  · exact ⟨by simpa [OrderBook.enqueue_order, hbuy] using pushLevel_posLevels bidBefore _ o _ hb,
      by simpa [OrderBook.enqueue_order, hbuy] using ha⟩
  · exact ⟨by simpa [OrderBook.enqueue_order, hbuy] using hb,
      by simpa [OrderBook.enqueue_order, hbuy] using pushLevel_posLevels askBefore _ o _ ha⟩

/-- Claim C4, amended: limit never stores an empty level: if every level of the
book is non-empty then every level left by a successful limit call is non-empty
(a consumed level is removed when emptied, and enqueueing makes a level
non-empty). The cancel half of the claim is refuted separately: cancel leaves an
emptied level stored. -/
theorem C4_limit_preserves_nonempty_levels (book : OrderBook) (o : Order)
    (fills : List Order) (book2 : OrderBook)
    (hne : LevelsNonEmpty book) (h : book.limit o = some (fills, book2)) :
    LevelsNonEmpty book2 := by
  obtain ⟨hb, ha⟩ := hne
  by_cases hbuy : o.is_buy = true
  · rw [OrderBook.limit, if_pos hbuy] at h
    cases hs : sweepSide (fun p => decide (p ≤ o.limit_px)) (decide (U64MAX ≤ o.limit_px))
        o.sz book.asks with
    | none => rw [hs] at h; exact absurd h (by simp)
    | some res =>
      obtain ⟨r, fs, asks2⟩ := res
      rw [hs] at h
      have hasks2 : PosLevels asks2 := sweepSide_posLevels _ _ _ _ _ hs ha
      by_cases hr : 0 < r
      · simp only [hr, ite_true, Option.some.injEq, Prod.mk.injEq] at h
        obtain ⟨rfl, rfl⟩ := h
        exact enqueue_posLevels _ o ⟨hb, hasks2⟩
      · simp only [hr, ite_false, Option.some.injEq, Prod.mk.injEq] at h
        obtain ⟨rfl, rfl⟩ := h
        exact ⟨hb, hasks2⟩
  · rw [OrderBook.limit, if_neg hbuy] at h
    cases hs : sweepSide (fun p => decide (o.limit_px ≤ p)) (decide (o.limit_px ≤ 0))
        o.sz book.bids with
    | none => rw [hs] at h; exact absurd h (by simp)
    | some res =>
      obtain ⟨r, fs, bids2⟩ := res
      rw [hs] at h
      have hbids2 : PosLevels bids2 := sweepSide_posLevels _ _ _ _ _ hs hb
      by_cases hr : 0 < r
      · simp only [hr, ite_true, Option.some.injEq, Prod.mk.injEq] at h
        obtain ⟨rfl, rfl⟩ := h
        exact enqueue_posLevels _ o ⟨hbids2, ha⟩
      · simp only [hr, ite_false, Option.some.injEq, Prod.mk.injEq] at h
        obtain ⟨rfl, rfl⟩ := h
        exact ⟨hbids2, ha⟩

/-- Witness for C4: a concrete crossing buy that empties an ask level leaves a
book whose stored levels are all non-empty. -/
theorem C4_limit_preserves_nonempty_levels_witness :
    LevelsNonEmpty ⟨[], [(10, [⟨false, 10, 4, 1⟩])], [(1, 10)]⟩ ∧
      LevelsNonEmpty ⟨[], [], [(1, 10)]⟩ :=
  ⟨by decide, C4_limit_preserves_nonempty_levels ⟨[], [(10, [⟨false, 10, 4, 1⟩])], [(1, 10)]⟩
    ⟨true, 10, 4, 2⟩ [⟨false, 10, 4, 1⟩, ⟨true, 10, 4, 2⟩] ⟨[], [], [(1, 10)]⟩
    (by decide) (by decide)⟩

/-- Counterexample to C4 as stated: place a buy of size 1 at price 10 on the
empty book and cancel it; cancel removes the order but not the emptied level,
so the resulting (reachable) book stores the empty level (10, []) on the bid
side, contradicting both that every stored level has an order and that cancel
removes any level it leaves empty. -/
theorem C4_cancel_leaves_empty_level_cex :
    ((emptyBook.limit ⟨true, 10, 1, 0⟩).bind (fun res => res.2.cancel 0) =
      some ⟨[(10, [])], [], []⟩) ∧
      ¬ LevelsNonEmpty ⟨[(10, [])], [], []⟩ := by
  constructor
  · decide
  · intro hcon
    exact absurd (hcon.1 (10, []) (by simp)) (by simp)

/-- Claim C10: when the sweep consumes the whole remaining size, limit returns
the consumed maker orders followed by the taker order itself (still carrying
its original sz field); when a positive amount remains, the returned list is
exactly the consumed maker orders, each drawn from the opposite side. -/
theorem C10_full_consumption_appends_taker (book : OrderBook) (o : Order)
    (fills : List Order) (book2 : OrderBook)
    (h : book.limit o = some (fills, book2)) :
    ∃ res, sweepSide (crossFn o) (emptyCrossFn o) o.sz (oppSide book o) = some res ∧
      List.Sublist res.2.1 (flattenOrders (oppSide book o)) ∧
      ((res.1 = 0 ∧ fills = res.2.1 ++ [o]) ∨ (0 < res.1 ∧ fills = res.2.1)) := by
  by_cases hbuy : o.is_buy = true
  · rw [OrderBook.limit, if_pos hbuy] at h
    cases hs : sweepSide (fun p => decide (p ≤ o.limit_px)) (decide (U64MAX ≤ o.limit_px))
        o.sz book.asks with
    | none => rw [hs] at h; exact absurd h (by simp)
    | some res =>
      obtain ⟨r, fs, asks2⟩ := res
      rw [hs] at h
      have hcf : crossFn o = fun p => decide (p ≤ o.limit_px) := by
        funext p
        simp [crossFn, hbuy]
      have hec : emptyCrossFn o = decide (U64MAX ≤ o.limit_px) := by
        simp [emptyCrossFn, hbuy]
      have hopp : oppSide book o = book.asks := by simp [oppSide, hbuy]
      refine ⟨(r, fs, asks2), by rw [hcf, hec, hopp]; exact hs, ?_, ?_⟩
      · rw [hopp]
        exact sweepSide_consumed_sublist _ _ _ _ _ hs
      · by_cases hr : 0 < r
        · simp only [hr, ite_true, Option.some.injEq, Prod.mk.injEq] at h
          exact Or.inr ⟨hr, h.1.symm⟩
        · simp only [hr, ite_false, Option.some.injEq, Prod.mk.injEq] at h
          exact Or.inl ⟨Nat.eq_zero_of_not_pos hr, h.1.symm⟩
  · rw [OrderBook.limit, if_neg hbuy] at h
    cases hs : sweepSide (fun p => decide (o.limit_px ≤ p)) (decide (o.limit_px ≤ 0))
        o.sz book.bids with
    | none => rw [hs] at h; exact absurd h (by simp)
    | some res =>
      obtain ⟨r, fs, bids2⟩ := res
      rw [hs] at h
      have hcf : crossFn o = fun p => decide (o.limit_px ≤ p) := by
        funext p
        simp [crossFn, hbuy]
      have hec : emptyCrossFn o = decide (o.limit_px ≤ 0) := by
        simp [emptyCrossFn, hbuy]
      have hopp : oppSide book o = book.bids := by simp [oppSide, hbuy]
      refine ⟨(r, fs, bids2), by rw [hcf, hec, hopp]; exact hs, ?_, ?_⟩
      · rw [hopp]
        exact sweepSide_consumed_sublist _ _ _ _ _ hs
      · by_cases hr : 0 < r
        · simp only [hr, ite_true, Option.some.injEq, Prod.mk.injEq] at h
          exact Or.inr ⟨hr, h.1.symm⟩
        · simp only [hr, ite_false, Option.some.injEq, Prod.mk.injEq] at h
          exact Or.inl ⟨Nat.eq_zero_of_not_pos hr, h.1.symm⟩

/-- Witness for C10: a buy of size 4 fully consumed by the single resting ask
of size 4; limit returns the maker followed by the taker order itself. -/
theorem C10_full_consumption_appends_taker_witness :
    (OrderBook.limit ⟨[], [(10, [⟨false, 10, 4, 1⟩])], [(1, 10)]⟩ ⟨true, 12, 4, 2⟩ =
      some ([⟨false, 10, 4, 1⟩, ⟨true, 12, 4, 2⟩], ⟨[], [], [(1, 10)]⟩)) ∧
      ∃ res, sweepSide (crossFn ⟨true, 12, 4, 2⟩) (emptyCrossFn ⟨true, 12, 4, 2⟩) 4
          (oppSide ⟨[], [(10, [⟨false, 10, 4, 1⟩])], [(1, 10)]⟩ ⟨true, 12, 4, 2⟩) = some res ∧
        List.Sublist res.2.1 (flattenOrders
          (oppSide ⟨[], [(10, [⟨false, 10, 4, 1⟩])], [(1, 10)]⟩ ⟨true, 12, 4, 2⟩)) ∧
        ((res.1 = 0 ∧ [⟨false, 10, 4, 1⟩, ⟨true, 12, 4, 2⟩] = res.2.1 ++ [⟨true, 12, 4, 2⟩]) ∨
          (0 < res.1 ∧ [⟨false, 10, 4, 1⟩, ⟨true, 12, 4, 2⟩] = res.2.1)) :=
  ⟨by decide, C10_full_consumption_appends_taker ⟨[], [(10, [⟨false, 10, 4, 1⟩])], [(1, 10)]⟩
    ⟨true, 12, 4, 2⟩ [⟨false, 10, 4, 1⟩, ⟨true, 12, 4, 2⟩] ⟨[], [], [(1, 10)]⟩ (by decide)⟩

/-- Counterexample to C1 as stated: a buy of size 1 priced at the u64 maximum
sent into the empty book makes the matching guard hold against the empty-side
sentinel, and the source unwraps the missing best ask level and panics (none)
instead of resting the order at its limit price as the claim requires for a
positive residual. -/
theorem C1_sentinel_panics_cex :
    OrderBook.limit emptyBook ⟨true, U64MAX, 1, 0⟩ = none := by decide

/-- Claim C1, amended with the hypothesis that the taker price is not the
empty-side sentinel (a buy strictly below the u64 maximum, a sell strictly
above 0): matching agrees with the reference consumer refConsume run on the
opposite side flattened best price first and FIFO within each level. The
consumer stops exactly when the remaining size hits 0 or the price no longer
crosses; the leftover opposite side equals the consumer leftover; the returned
fills are the consumed makers in consumption order (the source appends the
taker itself on full consumption); and a positive residual is appended to the
tail of the level at the taker limit price on its own side (the level is
created at its sorted position if absent) with the oid inserted into the OID
index, while otherwise the own side and the index are untouched. -/
theorem C1_price_time_priority (book : OrderBook) (o : Order) (hwf : book.WF)
    (hpx : if o.is_buy = true then o.limit_px < U64MAX else 0 < o.limit_px) :
    ∃ r cpx fills book2,
      book.limit o = some (fills, book2) ∧
      refConsume (crossFn o) o.sz (flattenPx (oppSide book o)) =
        (r, cpx, flattenPx (oppSide book2 o)) ∧
      sameSide book2 o = (if 0 < r then pushLevel (beforeFn o) o.limit_px o (sameSide book o)
        else sameSide book o) ∧
      book2.oid_to_level = (if 0 < r then assocInsert o.oid o.limit_px book.oid_to_level
        else book.oid_to_level) ∧
      fills = (if 0 < r then cpx.map Prod.snd else cpx.map Prod.snd ++ [o]) := by
  obtain ⟨hsb, hsa, hnb, hna, hpb, hpa⟩ := hwf
  by_cases hbuy : o.is_buy = true
  · rw [if_pos hbuy] at hpx
    have hec : decide (U64MAX ≤ o.limit_px) = false := by
      rw [decide_eq_false_iff_not]
      omega
    obtain ⟨res, hs⟩ := sweepSide_exists (fun p => decide (p ≤ o.limit_px)) book.asks o.sz
    have hlim : book.limit o =
        match sweepSide (fun p => decide (p ≤ o.limit_px)) false o.sz book.asks with
        | none => none
        | some (remaining, fills, asks2) =>
          let book2 : OrderBook := { book with asks := asks2 }
          if 0 < remaining then some (fills, book2.enqueue_order o)
          else some (fills ++ [o], book2) := by
      rw [OrderBook.limit, if_pos hbuy, hec]
    obtain ⟨r, fs, asks2⟩ := res
    obtain ⟨cpx, href, hmap⟩ := sweepSide_ref _ false book.asks hna hpa o.sz _ hs
    have hcf : crossFn o = fun p => decide (p ≤ o.limit_px) := by
      funext p
      simp [crossFn, hbuy]
    have hfs : fs = cpx.map Prod.snd := by simpa using hmap
    rw [hs] at hlim
    by_cases hr : 0 < r
    · simp only [hr, ite_true] at hlim
      refine ⟨r, cpx, fs, _, hlim, ?_, ?_, ?_, ?_⟩
      · rw [hcf]
        simpa [oppSide, hbuy, OrderBook.enqueue_order] using href
      · simp [sameSide, hbuy, OrderBook.enqueue_order, beforeFn, hr]
      · simp [OrderBook.enqueue_order, hbuy, hr]
      · simp [hr, hfs]
    · simp only [hr, ite_false] at hlim
      refine ⟨r, cpx, fs ++ [o], _, hlim, ?_, ?_, ?_, ?_⟩
      · rw [hcf]
        simpa [oppSide, hbuy] using href
      · simp [sameSide, hbuy, hr]
      · simp [hr]
      · simp [hr, hfs]
  · rw [if_neg hbuy] at hpx
    have hec : decide (o.limit_px ≤ 0) = false := by
      rw [decide_eq_false_iff_not]
      omega
    obtain ⟨res, hs⟩ := sweepSide_exists (fun p => decide (o.limit_px ≤ p)) book.bids o.sz
    have hlim : book.limit o =
        match sweepSide (fun p => decide (o.limit_px ≤ p)) false o.sz book.bids with
        | none => none
        | some (remaining, fills, bids2) =>
          let book2 : OrderBook := { book with bids := bids2 }
          if 0 < remaining then some (fills, book2.enqueue_order o)
          else some (fills ++ [o], book2) := by
      rw [OrderBook.limit, if_neg hbuy, hec]
    obtain ⟨r, fs, bids2⟩ := res
    obtain ⟨cpx, href, hmap⟩ := sweepSide_ref _ false book.bids hnb hpb o.sz _ hs
    have hcf : crossFn o = fun p => decide (o.limit_px ≤ p) := by
      funext p
      simp [crossFn, hbuy]
    have hfs : fs = cpx.map Prod.snd := by simpa using hmap
    rw [hs] at hlim
    by_cases hr : 0 < r
    · simp only [hr, ite_true] at hlim
      refine ⟨r, cpx, fs, _, hlim, ?_, ?_, ?_, ?_⟩
      · rw [hcf]
        simpa [oppSide, hbuy, OrderBook.enqueue_order] using href
      · simp [sameSide, hbuy, OrderBook.enqueue_order, beforeFn, hr]
      · simp [OrderBook.enqueue_order, hbuy, hr]
      · simp [hr, hfs]
    · simp only [hr, ite_false] at hlim
      refine ⟨r, cpx, fs ++ [o], _, hlim, ?_, ?_, ?_, ?_⟩
      · rw [hcf]
        simpa [oppSide, hbuy] using href
      · simp [sameSide, hbuy, hr]
      · simp [hr]
      · simp [hr, hfs]

/-- Witness for C1: a buy of size 6 at price 11 against two resting ask levels
(price 10 size 4 and price 12 size 4) consumes the 10 level completely, stops
at the non-crossing 12 level, and rests the residual on the bid side. -/
theorem C1_price_time_priority_witness :
    (OrderBook.WF ⟨[], [(10, [⟨false, 10, 4, 1⟩]), (12, [⟨false, 12, 4, 2⟩])],
        [(1, 10), (2, 12)]⟩ ∧
      (if (⟨true, 11, 6, 3⟩ : Order).is_buy = true then (11 : Nat) < U64MAX
        else (0 : Nat) < 11)) ∧
    ∃ r cpx fills book2,
      OrderBook.limit ⟨[], [(10, [⟨false, 10, 4, 1⟩]), (12, [⟨false, 12, 4, 2⟩])],
        [(1, 10), (2, 12)]⟩ ⟨true, 11, 6, 3⟩ = some (fills, book2) ∧
      refConsume (crossFn ⟨true, 11, 6, 3⟩) 6
        (flattenPx (oppSide ⟨[], [(10, [⟨false, 10, 4, 1⟩]), (12, [⟨false, 12, 4, 2⟩])],
          [(1, 10), (2, 12)]⟩ ⟨true, 11, 6, 3⟩)) =
        (r, cpx, flattenPx (oppSide book2 ⟨true, 11, 6, 3⟩)) ∧
      sameSide book2 ⟨true, 11, 6, 3⟩ =
        (if 0 < r then pushLevel (beforeFn ⟨true, 11, 6, 3⟩) 11 ⟨true, 11, 6, 3⟩
          (sameSide ⟨[], [(10, [⟨false, 10, 4, 1⟩]), (12, [⟨false, 12, 4, 2⟩])],
            [(1, 10), (2, 12)]⟩ ⟨true, 11, 6, 3⟩)
        else sameSide ⟨[], [(10, [⟨false, 10, 4, 1⟩]), (12, [⟨false, 12, 4, 2⟩])],
            [(1, 10), (2, 12)]⟩ ⟨true, 11, 6, 3⟩) ∧
      book2.oid_to_level = (if 0 < r then assocInsert 3 11 [(1, 10), (2, 12)]
        else [(1, 10), (2, 12)]) ∧
      fills = (if 0 < r then cpx.map Prod.snd else cpx.map Prod.snd ++ [⟨true, 11, 6, 3⟩]) :=
  ⟨⟨by decide, by decide⟩,
    C1_price_time_priority ⟨[], [(10, [⟨false, 10, 4, 1⟩]), (12, [⟨false, 12, 4, 2⟩])],
      [(1, 10), (2, 12)]⟩ ⟨true, 11, 6, 3⟩ (by decide) (by decide)⟩

/-! Cancel-after-place restoration machinery. -/

theorem bidBefore_trans (a b c : Nat) (h1 : bidBefore a b = true) (h2 : bidBefore b c = true) :
    bidBefore a c = true := by
  simp [bidBefore] at h1 h2 ⊢
  omega

theorem bidBefore_irrefl (a : Nat) : bidBefore a a = false := by
  simp [bidBefore]

theorem askBefore_trans (a b c : Nat) (h1 : askBefore a b = true) (h2 : askBefore b c = true) :
    askBefore a c = true := by
  simp [askBefore] at h1 h2 ⊢
  omega

theorem askBefore_irrefl (a : Nat) : askBefore a a = false := by
  simp [askBefore]

theorem assocFind_none_of_keys_ne {α : Type} (k : Nat) (l : List (Nat × α))
    (h : ∀ q ∈ l, q.1 ≠ k) : assocFind k l = none := by
  induction l with
  | nil => rfl
  | cons hd t ih =>
    obtain ⟨k2, v2⟩ := hd
    have hne : ¬ k2 = k := h (k2, v2) (by simp)
    simp [assocFind, hne]
    exact ih (fun q hq => h q (List.mem_cons_of_mem _ hq))

theorem assocFind_mem_keys {α : Type} (k : Nat) (l : List (Nat × α))
    (h : (assocFind k l).isSome) : k ∈ l.map Prod.fst := by
  induction l with
  | nil => simp [assocFind] at h
  | cons hd t ih =>
    obtain ⟨k2, v2⟩ := hd
    by_cases hk : k2 = k
    · simp [hk]
    · simp [assocFind, hk] at h
      simpa using Or.inr (by simpa using ih h)

theorem assocFind_pushLevel_isSome (before : Nat → Nat → Bool) (px : Nat) (o : Order)
    (side : List (Nat × Level)) :
    (assocFind px (pushLevel before px o side)).isSome := by
  induction side with
  | nil => simp [pushLevel, assocFind]
  | cons pl rest ih =>
    obtain ⟨p, lvl⟩ := pl
    by_cases hp : p = px
    · simp [pushLevel, hp, assocFind]
    · by_cases hb : before px p = true
      · simp [pushLevel, hp, hb, assocFind]
      · simp [pushLevel, hp, hb, assocFind, ih]

theorem mapLevel_keys_ne (px : Nat) (f : Level → Level) (side : List (Nat × Level))
    (h : ∀ q ∈ side, q.1 ≠ px) : mapLevel px f side = side := by
  induction side with
  | nil => rfl
  | cons pl rest ih =>
    obtain ⟨p, lvl⟩ := pl
    have hp : ¬ p = px := h (p, lvl) (by simp)
    simp only [mapLevel, List.map_cons, hp, ite_false]
    have := ih (fun q hq => h q (List.mem_cons_of_mem _ hq))
    simp only [mapLevel] at this
    rw [this]

theorem retainLevel_append_self (o : Order) (lvl : Level)
    (h : ∀ x ∈ lvl, x.oid ≠ o.oid) : retainLevel o.oid (lvl ++ [o]) = lvl := by
  rw [retainLevel, List.filter_append]
  have h1 : lvl.filter (fun x => x.oid != o.oid) = lvl :=
    List.filter_eq_self.mpr (fun x hx => by simpa using h x hx)
  have h2 : [o].filter (fun x => x.oid != o.oid) = [] := by simp
  rw [h1, h2, List.append_nil]

theorem mapLevel_retain_pushLevel (before : Nat → Nat → Bool)
    (htr : ∀ a b c, before a b = true → before b c = true → before a c = true)
    (hirr : ∀ a, before a a = false)
    (px : Nat) (o : Order) (hopx : o.limit_px = px) (side : List (Nat × Level))
    (hsor : SortedSide before side)
    (hlvl : (assocFind px side).isSome)
    (hfresh : ∀ q ∈ side, ∀ x ∈ q.2, x.oid ≠ o.oid) :
    mapLevel px (retainLevel o.oid) (pushLevel before px o side) = side := by
  induction side with
  | nil => simp [assocFind] at hlvl
  | cons pl rest ih =>
    obtain ⟨p, lvl⟩ := pl
    have hsor2 : SortedSide before rest := by
      rw [SortedSide, List.map_cons] at hsor
      exact (List.pairwise_cons.mp hsor).2
    have hhead : ∀ k ∈ rest.map Prod.fst, before p k = true := by
      rw [SortedSide, List.map_cons] at hsor
      exact (List.pairwise_cons.mp hsor).1
    by_cases hp : p = px
    · subst hp
      have hnot : ∀ q ∈ rest, q.1 ≠ p := by
        intro q hq hqe
        have := hhead q.1 (List.mem_map_of_mem Prod.fst hq)
        rw [hqe] at this
        rw [hirr p] at this
        exact Bool.false_ne_true this
      simp only [pushLevel, if_pos rfl, mapLevel, List.map_cons, ite_true]
      have hrest := mapLevel_keys_ne p (retainLevel o.oid) rest hnot
      simp only [mapLevel] at hrest
      rw [hrest]
      rw [retainLevel_append_self o lvl (fun x hx => hfresh (p, lvl) (by simp) x hx)]
    · by_cases hb : before px p = true
      · have hmem : px ∈ rest.map Prod.fst := by
          have := assocFind_mem_keys px ((p, lvl) :: rest) hlvl
          simp at this
          rcases this with h1 | h2
          · exact absurd h1.symm hp
          · simpa using h2
        have hppx : before p px = true := hhead px hmem
        have : before px px = true := htr px p px hb hppx
        rw [hirr px] at this
        exact absurd this Bool.false_ne_true
      · have hlvl2 : (assocFind px rest).isSome := by
          simpa [assocFind, hp] using hlvl
        simp only [pushLevel, hp, ite_false, hb, Bool.false_eq_true, mapLevel, List.map_cons]
        have := ih hsor2 hlvl2 (fun q hq => hfresh q (List.mem_cons_of_mem _ hq))
        simp only [mapLevel] at this
        rw [this]

/-- Counterexample to C6 as stated: place a non-crossing sell of size 2 at
price 7 on the empty book and cancel it. The cancel removes the order and the
OID index entry but leaves the emptied ask level stored, so the book differs
from the pre-place state (the empty book) by the leftover level (7, []). -/
theorem C6_missing_level_not_restored_cex :
    ((emptyBook.limit ⟨false, 7, 2, 5⟩).bind (fun res => res.2.cancel 5) =
      some ⟨[], [(7, [])], []⟩) ∧ (⟨[], [(7, [])], []⟩ : OrderBook) ≠ emptyBook := by
  constructor
  · decide
  · decide

/-- Claim C6, amended with the hypothesis that a level at the order limit
price already exists on its own side (when the level has to be created, cancel
leaves it behind emptied, per the counterexample): placing a non-crossing
order with a fresh oid and positive size and then cancelling it restores the
order book exactly — both side maps and the OID index. -/
theorem C6_place_cancel_roundtrip (book : OrderBook) (o : Order)
    (hwf : book.WF)
    (hfresh_idx : assocFind o.oid book.oid_to_level = none)
    (hfresh_book : ∀ q ∈ sameSide book o, ∀ x ∈ q.2, x.oid ≠ o.oid)
    (hsz : 0 < o.sz)
    (hcross : if o.is_buy = true then o.limit_px < book.ask_min else book.bid_max < o.limit_px)
    (hlvl : (assocFind o.limit_px (sameSide book o)).isSome) :
    ∃ book1, book.limit o = some ([], book1) ∧ book1.cancel o.oid = some book := by
  obtain ⟨hsb, hsa, hnb, hna, hpb, hpa⟩ := hwf
  by_cases hbuy : o.is_buy = true
  · rw [if_pos hbuy] at hcross
    have hsame : sameSide book o = book.bids := by simp [sameSide, hbuy]
    rw [hsame] at hfresh_book hlvl
    have hsw : sweepSide (fun p => decide (p ≤ o.limit_px)) (decide (U64MAX ≤ o.limit_px))
        o.sz book.asks = some (o.sz, [], book.asks) := by
      cases hak : book.asks with
      | nil =>
        have hmin : book.ask_min = U64MAX := by simp [OrderBook.ask_min, hak]
        rw [hmin] at hcross
        have hec : decide (U64MAX ≤ o.limit_px) = false := by
          rw [decide_eq_false_iff_not]
          omega
        rw [hec]
        exact sweepSide_nil_noec _ o.sz
      | cons hd tl =>
        obtain ⟨p0, l0⟩ := hd
        have hmin : book.ask_min = p0 := by simp [OrderBook.ask_min, hak]
        rw [hmin] at hcross
        have hcx : decide (p0 ≤ o.limit_px) = false := by
          rw [decide_eq_false_iff_not]
          omega
        exact sweepSide_head_noncross _ _ o.sz p0 l0 tl hcx
    have hlim : book.limit o = some ([], book.enqueue_order o) := by
      rw [OrderBook.limit, if_pos hbuy, hsw]
      simp [hsz]
    have hb1 : book.enqueue_order o =
        ⟨pushLevel bidBefore o.limit_px o book.bids, book.asks,
          assocInsert o.oid o.limit_px book.oid_to_level⟩ := by
      simp [OrderBook.enqueue_order, hbuy]
    have hfind : (assocFind o.limit_px (pushLevel bidBefore o.limit_px o book.bids)).isSome =
        true := assocFind_pushLevel_isSome bidBefore o.limit_px o book.bids
    have hcan : OrderBook.cancel ⟨pushLevel bidBefore o.limit_px o book.bids, book.asks,
        assocInsert o.oid o.limit_px book.oid_to_level⟩ o.oid =
        some ⟨mapLevel o.limit_px (retainLevel o.oid)
            (pushLevel bidBefore o.limit_px o book.bids), book.asks,
          assocErase o.oid (assocInsert o.oid o.limit_px book.oid_to_level)⟩ := by
      simp [OrderBook.cancel, assocFind_insert_self, hfind]
    refine ⟨book.enqueue_order o, hlim, ?_⟩
    rw [hb1, hcan, mapLevel_retain_pushLevel bidBefore bidBefore_trans bidBefore_irrefl
      o.limit_px o rfl book.bids hsb hlvl hfresh_book,
      assocErase_insert_fresh o.oid o.limit_px book.oid_to_level hfresh_idx]
  · rw [if_neg hbuy] at hcross
    have hsame : sameSide book o = book.asks := by simp [sameSide, hbuy]
    rw [hsame] at hfresh_book hlvl
    have hsw : sweepSide (fun p => decide (o.limit_px ≤ p)) (decide (o.limit_px ≤ 0))
        o.sz book.bids = some (o.sz, [], book.bids) := by
      cases hbk : book.bids with
      | nil =>
        have hmax : book.bid_max = 0 := by simp [OrderBook.bid_max, hbk]
        rw [hmax] at hcross
        have hec : decide (o.limit_px ≤ 0) = false := by
          rw [decide_eq_false_iff_not]
          omega
        rw [hec]
        exact sweepSide_nil_noec _ o.sz
      | cons hd tl =>
        obtain ⟨p0, l0⟩ := hd
        have hmax : book.bid_max = p0 := by simp [OrderBook.bid_max, hbk]
        rw [hmax] at hcross
        have hcx : decide (o.limit_px ≤ p0) = false := by
          rw [decide_eq_false_iff_not]
          omega
        exact sweepSide_head_noncross _ _ o.sz p0 l0 tl hcx
    have hlim : book.limit o = some ([], book.enqueue_order o) := by
      rw [OrderBook.limit, if_neg hbuy, hsw]
      simp [hsz]
    have hb1 : book.enqueue_order o =
        ⟨book.bids, pushLevel askBefore o.limit_px o book.asks,
          assocInsert o.oid o.limit_px book.oid_to_level⟩ := by
      simp [OrderBook.enqueue_order, hbuy]
    have hkeys : ∀ q ∈ book.bids, q.1 ≠ o.limit_px := by
      intro q hq
      cases hbk : book.bids with
      | nil =>
        rw [hbk] at hq
        simp at hq
      | cons hd tl =>
        obtain ⟨p0, l0⟩ := hd
        have hmax : book.bid_max = p0 := by simp [OrderBook.bid_max, hbk]
        rw [hmax] at hcross
        rw [hbk] at hq
        rcases List.mem_cons.mp hq with h1 | h2
        · rw [h1]
          intro he
          simp at he
          omega
        · have hpair : bidBefore p0 q.1 = true := by
            rw [hbk] at hsb
            rw [SortedSide, List.map_cons] at hsb
            exact (List.pairwise_cons.mp hsb).1 q.1 (List.mem_map_of_mem Prod.fst h2)
          simp [bidBefore] at hpair
          intro he
          omega
    have hnone : assocFind o.limit_px book.bids = none :=
      assocFind_none_of_keys_ne o.limit_px book.bids hkeys
    have hfind : (assocFind o.limit_px (pushLevel askBefore o.limit_px o book.asks)).isSome =
        true := assocFind_pushLevel_isSome askBefore o.limit_px o book.asks
    have hcan : OrderBook.cancel ⟨book.bids, pushLevel askBefore o.limit_px o book.asks,
        assocInsert o.oid o.limit_px book.oid_to_level⟩ o.oid =
        some ⟨book.bids, mapLevel o.limit_px (retainLevel o.oid)
            (pushLevel askBefore o.limit_px o book.asks),
          assocErase o.oid (assocInsert o.oid o.limit_px book.oid_to_level)⟩ := by
      simp [OrderBook.cancel, assocFind_insert_self, hnone, hfind]
    refine ⟨book.enqueue_order o, hlim, ?_⟩
    rw [hb1, hcan, mapLevel_retain_pushLevel askBefore askBefore_trans askBefore_irrefl
      o.limit_px o rfl book.asks hsa hlvl hfresh_book,
      assocErase_insert_fresh o.oid o.limit_px book.oid_to_level hfresh_idx]

/-- Witness for C6: a fresh non-crossing buy of size 3 at price 10 joins the
existing bid level at 10 and cancelling it restores the book exactly. -/
theorem C6_place_cancel_roundtrip_witness :
    (OrderBook.WF ⟨[(10, [⟨true, 10, 2, 1⟩])], [], [(1, 10)]⟩ ∧
      assocFind 7 [(1, 10)] = none ∧
      (∀ q ∈ sameSide ⟨[(10, [⟨true, 10, 2, 1⟩])], [], [(1, 10)]⟩ ⟨true, 10, 3, 7⟩,
        ∀ x ∈ q.2, x.oid ≠ 7) ∧
      (0 : Nat) < 3 ∧
      (if (⟨true, 10, 3, 7⟩ : Order).is_buy = true
        then (10 : Nat) < OrderBook.ask_min ⟨[(10, [⟨true, 10, 2, 1⟩])], [], [(1, 10)]⟩
        else OrderBook.bid_max ⟨[(10, [⟨true, 10, 2, 1⟩])], [], [(1, 10)]⟩ < 10) ∧
      (assocFind 10 (sameSide ⟨[(10, [⟨true, 10, 2, 1⟩])], [], [(1, 10)]⟩
        ⟨true, 10, 3, 7⟩)).isSome) ∧
    ∃ book1, OrderBook.limit ⟨[(10, [⟨true, 10, 2, 1⟩])], [], [(1, 10)]⟩ ⟨true, 10, 3, 7⟩ =
        some ([], book1) ∧
      book1.cancel 7 = some ⟨[(10, [⟨true, 10, 2, 1⟩])], [], [(1, 10)]⟩ :=
  ⟨⟨by decide, by decide, by decide, by decide, by decide, by decide⟩,
    C6_place_cancel_roundtrip ⟨[(10, [⟨true, 10, 2, 1⟩])], [], [(1, 10)]⟩ ⟨true, 10, 3, 7⟩
      (by decide) (by decide) (by decide) (by decide) (by decide) (by decide)⟩

/-! Server theorems. -/

/-- Claim C7: a place_order by an existing account whose spent-side balance is
short (for a buy, b below sz; for a sell, a below sz) returns success false
with a null status, and the whole shared state — balances, book, status
registry, oid counter — is returned exactly unchanged. -/
theorem C7_insufficient_balance_no_mutation (s : SharedState) (addr : Nat) (tbuy : Bool)
    (limit_px sz : Nat) (bal : UserBalance)
    (hfind : assocFind addr s.balances = some bal)
    (hshort : ((tbuy && decide (bal.b < sz)) || (!tbuy && decide (bal.a < sz))) = true) :
    place_order s addr tbuy limit_px sz = some (s, ⟨false, none⟩) := by
  rw [place_order, hfind]
  simp [hshort]

/-- Witness for C7: account 1 holds (a 5, b 5); a buy of size 6 is refused with
no mutation. -/
theorem C7_insufficient_balance_no_mutation_witness :
    (assocFind 1 [(1, (⟨5, 5⟩ : UserBalance))] = some ⟨5, 5⟩ ∧
      ((true && decide ((5 : Nat) < 6)) || (!true && decide ((5 : Nat) < 6))) = true) ∧
    place_order ⟨[(1, ⟨5, 5⟩)], emptyBook, [], 0⟩ 1 true 10 6 =
      some (⟨[(1, ⟨5, 5⟩)], emptyBook, [], 0⟩, ⟨false, none⟩) :=
  ⟨⟨by decide, by decide⟩,
    C7_insufficient_balance_no_mutation ⟨[(1, ⟨5, 5⟩)], emptyBook, [], 0⟩ 1 true 10 6 ⟨5, 5⟩
      (by decide) (by decide)⟩

/-- Claim C8 names the intended behavior; the code panics instead: a withdraw
or place_order for an address that was never deposited unwraps the missing
balance entry (None) and panics rather than responding success false.
Evaluated at the initial state with address 1. -/
theorem C8_missing_account_panics :
    withdraw initialState 1 ⟨0, 0⟩ = none ∧ place_order initialState 1 true 10 1 = none := by
  constructor
  · decide
  · decide

/-- Claim C9: deposit stores exactly the supplied amounts for addr, replacing
any previous entry, answers success true, and every other account and the
rest of the state are untouched. -/
theorem C9_deposit_replaces (s : SharedState) (addr : Nat) (amounts : UserBalance) :
    (deposit s addr amounts).2 = ⟨true⟩ ∧
    assocFind addr (deposit s addr amounts).1.balances = some amounts ∧
    (∀ x, x ≠ addr → assocFind x (deposit s addr amounts).1.balances =
      assocFind x s.balances) ∧
    (deposit s addr amounts).1.book = s.book ∧
    (deposit s addr amounts).1.order_status = s.order_status ∧
    (deposit s addr amounts).1.oid = s.oid := by
  refine ⟨rfl, ?_, ?_, rfl, rfl, rfl⟩
  · simpa [deposit] using assocFind_insert_self addr amounts s.balances
  · intro x hx
    simpa [deposit] using assocFind_insert_ne x addr amounts s.balances hx

/-- Witness for C9: redepositing (10, 20) over the old entry (3, 4) of account
1 replaces it, and account 2 is unchanged. -/
theorem C9_deposit_replaces_witness :
    assocFind 1 (deposit ⟨[(1, ⟨3, 4⟩), (2, ⟨7, 8⟩)], emptyBook, [], 0⟩ 1
      ⟨10, 20⟩).1.balances = some ⟨10, 20⟩ ∧
    assocFind 2 (deposit ⟨[(1, ⟨3, 4⟩), (2, ⟨7, 8⟩)], emptyBook, [], 0⟩ 1
      ⟨10, 20⟩).1.balances =
      assocFind 2 (⟨[(1, ⟨3, 4⟩), (2, ⟨7, 8⟩)], emptyBook, [], 0⟩ : SharedState).balances :=
  ⟨(C9_deposit_replaces ⟨[(1, ⟨3, 4⟩), (2, ⟨7, 8⟩)], emptyBook, [], 0⟩ 1 ⟨10, 20⟩).2.1,
    (C9_deposit_replaces ⟨[(1, ⟨3, 4⟩), (2, ⟨7, 8⟩)], emptyBook, [], 0⟩ 1 ⟨10, 20⟩).2.2.1 2
      (by decide)⟩

/-- Claim C3 is violated by the code: in the C3 scenario the buy order (oid 1,
original size 10) is filled for 5, rests with its original size 10 (the source
never assigns the residual to the order), and a later sell consumes it for 10
more, leaving its registry record with filled_sz 15 strictly greater than
sz 10. The record still satisfies filled_sz = sum of its fill sizes. -/
theorem C3_filled_exceeds_size_bug :
    c3Record = some ⟨1, 10, 1, 15, [⟨0, 1, 5⟩, ⟨1, 2, 10⟩]⟩ ∧
    ∃ fs, c3Record = some fs ∧ fs.sz < fs.filled_sz ∧
      fs.filled_sz = (fs.fills.map OrderFill.sz).sum := by
  refine ⟨by decide, ⟨1, 10, 1, 15, [⟨0, 1, 5⟩, ⟨1, 2, 10⟩]⟩, by decide, by decide, by decide⟩

/-! Maker settlement lemmas for C5. -/

theorem assocFind_mem {α : Type} (k : Nat) (l : List (Nat × α)) (v : α)
    (h : assocFind k l = some v) : (k, v) ∈ l := by
  induction l with
  | nil => simp [assocFind] at h
  | cons hd t ih =>
    obtain ⟨k2, v2⟩ := hd
    by_cases hk : k2 = k
    · subst hk
      simp [assocFind] at h
      simp [h]
    · simp [assocFind, hk] at h
      exact List.mem_cons_of_mem _ (ih h)

theorem assocInsert_mem {α : Type} (k : Nat) (v : α) (l : List (Nat × α))
    (p : Nat × α) (hp : p ∈ assocInsert k v l) : p = (k, v) ∨ p ∈ l := by
  induction l with
  | nil =>
    simp [assocInsert] at hp
    exact Or.inl hp
  | cons hd t ih =>
    obtain ⟨k2, v2⟩ := hd
    by_cases hk : k2 = k
    · simp [assocInsert, hk] at hp
      rcases hp with h1 | h2
      · exact Or.inl (by simp [h1])
      · exact Or.inr (List.mem_cons_of_mem _ h2)
    · simp only [assocInsert, hk, ite_false, List.mem_cons] at hp
      rcases hp with h1 | h2
      · exact Or.inr (by simp [h1])
      · rcases ih h2 with h3 | h4
        · exact Or.inl h3
        · exact Or.inr (List.mem_cons_of_mem _ h4)

theorem settleMakers_addr_stable (tbuy : Bool) (fills : List OrderFill) :
    ∀ balances st b2 st2, settleMakers tbuy fills balances st = some (b2, st2) →
    ∀ k, (assocFind k st2).map FillStatus.addr = (assocFind k st).map FillStatus.addr := by
  induction fills with
  | nil =>
    intro balances st b2 st2 h k
    simp [settleMakers] at h
    rw [h.2]
  | cons fill rest ih =>
    intro balances st b2 st2 h k
    rw [settleMakers] at h
    cases hms : assocFind fill.maker_oid st with
    | none =>
      simp only [hms] at h
      exact absurd h (by simp)
    | some ms =>
      simp only [hms] at h
      cases hmb : assocFind ms.addr balances with
      | none =>
        simp only [hmb] at h
        exact absurd h (by simp)
      | some mb =>
        simp only [hmb] at h
        have hstep := assocFind_map_addr st fill.maker_oid
          (FillStatus.mk ms.oid ms.sz ms.addr ((ms.filled_sz + fill.sz) % U64MOD)
            (ms.fills ++ [fill])) (by rw [hms]; rfl) k
        rw [← hstep]
        exact ih _ _ _ _ h k

theorem makerCredit_congr (st st2 : List (Nat × FillStatus))
    (h : ∀ k, (assocFind k st2).map FillStatus.addr = (assocFind k st).map FillStatus.addr)
    (fills : List OrderFill) (x : Nat) : makerCredit st2 fills x = makerCredit st fills x := by
  rw [makerCredit, makerCredit]
  have : fills.filter (fun f => decide (makerAddr st2 f = some x)) =
      fills.filter (fun f => decide (makerAddr st f = some x)) := by
    apply List.filter_congr
    intro f _
    rw [makerAddr, makerAddr, h f.maker_oid]
  rw [this]

theorem U64MOD_pos : 0 < U64MOD := by decide

theorem makerCredit_cons (st : List (Nat × FillStatus)) (f : OrderFill)
    (rest : List OrderFill) (x : Nat) :
    makerCredit st (f :: rest) x =
      (if makerAddr st f = some x then f.sz else 0) + makerCredit st rest x := by
  rw [makerCredit, makerCredit, List.filter_cons]
  by_cases hf : makerAddr st f = some x
  · simp [hf]
  · simp [hf]

theorem settleMakers_balances (tbuy : Bool) (fills : List OrderFill) :
    ∀ balances st b2 st2, settleMakers tbuy fills balances st = some (b2, st2) →
    (∀ p ∈ balances, p.2.a < U64MOD ∧ p.2.b < U64MOD) →
    ∀ x bx, assocFind x balances = some bx →
      ∃ bx2, assocFind x b2 = some bx2 ∧
        (tbuy = true → bx2.a = bx.a ∧ bx2.b = (bx.b + makerCredit st fills x) % U64MOD) ∧
        (tbuy = false → bx2.b = bx.b ∧ bx2.a = (bx.a + makerCredit st fills x) % U64MOD) := by
  induction fills with
  | nil =>
    intro balances st b2 st2 h hbound x bx hx
    simp [settleMakers] at h
    have hb := hbound (x, bx) (assocFind_mem x balances bx hx)
    refine ⟨bx, by rw [← h.1]; exact hx, ?_, ?_⟩
    · intro _
      refine ⟨rfl, ?_⟩
      rw [makerCredit]
      simp
      exact (Nat.mod_eq_of_lt hb.2).symm
    · intro _
      refine ⟨rfl, ?_⟩
      rw [makerCredit]
      simp
      exact (Nat.mod_eq_of_lt hb.1).symm
  | cons fill rest ih =>
    intro balances st b2 st2 h hbound x bx hx
    rw [settleMakers] at h
    cases hms : assocFind fill.maker_oid st with
    | none =>
      simp only [hms] at h
      exact absurd h (by simp)
    | some ms =>
      simp only [hms] at h
      cases hmb : assocFind ms.addr balances with
      | none =>
        simp only [hmb] at h
        exact absurd h (by simp)
      | some mb =>
        simp only [hmb] at h
        have hstable : ∀ k, (assocFind k (assocInsert fill.maker_oid
            (FillStatus.mk ms.oid ms.sz ms.addr ((ms.filled_sz + fill.sz) % U64MOD)
              (ms.fills ++ [fill])) st)).map FillStatus.addr =
            (assocFind k st).map FillStatus.addr :=
          fun k => assocFind_map_addr st fill.maker_oid _ (by rw [hms]; rfl) k
        have hcr : ∀ y, makerCredit (assocInsert fill.maker_oid
            (FillStatus.mk ms.oid ms.sz ms.addr ((ms.filled_sz + fill.sz) % U64MOD)
              (ms.fills ++ [fill])) st) rest y = makerCredit st rest y :=
          fun y => makerCredit_congr _ _ hstable rest y
        have hmaddr : makerAddr st fill = some ms.addr := by
          rw [makerAddr, hms]
          rfl
        have hmbmem := hbound (ms.addr, mb) (assocFind_mem ms.addr balances mb hmb)
        by_cases htb : tbuy = true
        · subst htb
          have hite : (if (true : Bool) = true
              then UserBalance.mk mb.a ((mb.b + fill.sz) % U64MOD)
              else UserBalance.mk ((mb.a + fill.sz) % U64MOD) mb.b) =
              UserBalance.mk mb.a ((mb.b + fill.sz) % U64MOD) := rfl
          rw [hite] at h
          have hbound2 : ∀ p ∈ assocInsert ms.addr
              (UserBalance.mk mb.a ((mb.b + fill.sz) % U64MOD)) balances,
              p.2.a < U64MOD ∧ p.2.b < U64MOD := by
            intro p hp
            rcases assocInsert_mem _ _ _ p hp with h1 | h2
            · rw [h1]
              exact ⟨hmbmem.1, Nat.mod_lt _ U64MOD_pos⟩
            · exact hbound p h2
          by_cases hxa : x = ms.addr
          · subst hxa
            have hbx : mb = bx := by
              rw [hx] at hmb
              exact (Option.some.inj hmb).symm
            obtain ⟨bx2, hfind2, hby, _⟩ := ih _ _ _ _ h hbound2 ms.addr _
              (assocFind_insert_self ms.addr (UserBalance.mk mb.a ((mb.b + fill.sz) % U64MOD))
                balances)
            obtain ⟨hba, hbb⟩ := hby rfl
            refine ⟨bx2, hfind2, ?_, ?_⟩
            · intro _
              refine ⟨by rw [hba, ← hbx], ?_⟩
              have hc : makerCredit st (fill :: rest) ms.addr =
                  fill.sz + makerCredit st rest ms.addr := by
                rw [makerCredit_cons, if_pos (by rw [hmaddr])]
              have hproj : (UserBalance.mk mb.a ((mb.b + fill.sz) % U64MOD)).b =
                  (mb.b + fill.sz) % U64MOD := rfl
              rw [hbb, hcr, hproj, Nat.mod_add_mod, hc, ← hbx, ← Nat.add_assoc]
            · intro hf
              exact absurd hf (by simp)
          · obtain ⟨bx2, hfind2, hby, _⟩ := ih _ _ _ _ h hbound2 x bx
              (by rw [assocFind_insert_ne x ms.addr _ balances hxa]; exact hx)
            obtain ⟨hba, hbb⟩ := hby rfl
            refine ⟨bx2, hfind2, ?_, ?_⟩
            · intro _
              refine ⟨hba, ?_⟩
              have hc : makerCredit st (fill :: rest) x = makerCredit st rest x := by
                rw [makerCredit_cons, if_neg ?_]
                · exact Nat.zero_add _
                · rw [hmaddr]
                  intro hcon
                  exact hxa (Option.some.inj hcon).symm
              rw [hbb, hcr, hc]
            · intro hf
              exact absurd hf (by simp)
        · have htb2 : tbuy = false := by
            revert htb
            cases tbuy <;> simp
          subst htb2
          have hite : (if (false : Bool) = true
              then UserBalance.mk mb.a ((mb.b + fill.sz) % U64MOD)
              else UserBalance.mk ((mb.a + fill.sz) % U64MOD) mb.b) =
              UserBalance.mk ((mb.a + fill.sz) % U64MOD) mb.b := rfl
          rw [hite] at h
          have hbound2 : ∀ p ∈ assocInsert ms.addr
              (UserBalance.mk ((mb.a + fill.sz) % U64MOD) mb.b) balances,
              p.2.a < U64MOD ∧ p.2.b < U64MOD := by
            intro p hp
            rcases assocInsert_mem _ _ _ p hp with h1 | h2
            · rw [h1]
              exact ⟨Nat.mod_lt _ U64MOD_pos, hmbmem.2⟩
            · exact hbound p h2
          by_cases hxa : x = ms.addr
          · subst hxa
            have hbx : mb = bx := by
              rw [hx] at hmb
              exact (Option.some.inj hmb).symm
            obtain ⟨bx2, hfind2, _, hbs⟩ := ih _ _ _ _ h hbound2 ms.addr _
              (assocFind_insert_self ms.addr (UserBalance.mk ((mb.a + fill.sz) % U64MOD) mb.b)
                balances)
            obtain ⟨hbb, hba⟩ := hbs rfl
            refine ⟨bx2, hfind2, ?_, ?_⟩
            · intro hf
              exact absurd hf (by simp)
            · intro _
              refine ⟨by rw [hbb, ← hbx], ?_⟩
              have hc : makerCredit st (fill :: rest) ms.addr =
                  fill.sz + makerCredit st rest ms.addr := by
                rw [makerCredit_cons, if_pos (by rw [hmaddr])]
              have hproj : (UserBalance.mk ((mb.a + fill.sz) % U64MOD) mb.b).a =
                  (mb.a + fill.sz) % U64MOD := rfl
              rw [hba, hcr, hproj, Nat.mod_add_mod, hc, ← hbx, ← Nat.add_assoc]
          · obtain ⟨bx2, hfind2, _, hbs⟩ := ih _ _ _ _ h hbound2 x bx
              (by rw [assocFind_insert_ne x ms.addr _ balances hxa]; exact hx)
            obtain ⟨hbb, hba⟩ := hbs rfl
            refine ⟨bx2, hfind2, ?_, ?_⟩
            · intro hf
              exact absurd hf (by simp)
            · intro _
              refine ⟨hbb, ?_⟩
              have hc : makerCredit st (fill :: rest) x = makerCredit st rest x := by
                rw [makerCredit_cons, if_neg ?_]
                · exact Nat.zero_add _
                · rw [hmaddr]
                  intro hcon
                  exact hxa (Option.some.inj hcon).symm
              rw [hba, hcr, hc]

/-- Claim C5: a successful place_order settles sizes, not prices. With
s2 the post state and fs the returned status: for a buy, the taker account
loses exactly sz of asset b and gains exactly filled_sz of asset a; on a sell
the roles of a and b swap. Every account x additionally receives, on the side
opposite the taker spend, exactly the sum of the fill sizes whose maker record
it owns (makerCredit), so each maker is credited exactly fill.sz per fill, and
an account that is neither the taker nor a maker is unchanged. The equations
never mention limit_px: one unit of a exchanges for one unit of b. Additions
are u64 wrapping, hence the mod. -/
theorem C5_settlement_amounts (s : SharedState) (addr : Nat) (tbuy : Bool)
    (limit_px sz : Nat) (s2 : SharedState) (resp : PlaceOrderResponse)
    (hbound : ∀ p ∈ s.balances, p.2.a < U64MOD ∧ p.2.b < U64MOD)
    (h : place_order s addr tbuy limit_px sz = some (s2, resp))
    (hsucc : resp.success = true) :
    ∃ fs, resp.status = some fs ∧
      fs.filled_sz = sz - (serverLimit s.book ⟨tbuy, limit_px, sz, s.oid⟩).1 ∧
      fs.fills = (serverLimit s.book ⟨tbuy, limit_px, sz, s.oid⟩).2.1 ∧
      ∀ x bx, assocFind x s.balances = some bx →
        ∃ bx2, assocFind x s2.balances = some bx2 ∧
          (tbuy = true →
            bx2.a = (if x = addr then (bx.a + fs.filled_sz) % U64MOD else bx.a) ∧
            bx2.b = (bx.b - (if x = addr then sz else 0) +
              makerCredit s.order_status fs.fills x) % U64MOD) ∧
          (tbuy = false →
            bx2.b = (if x = addr then (bx.b + fs.filled_sz) % U64MOD else bx.b) ∧
            bx2.a = (bx.a - (if x = addr then sz else 0) +
              makerCredit s.order_status fs.fills x) % U64MOD) := by
  rw [place_order] at h
  cases hfind : assocFind addr s.balances with
  | none =>
    rw [hfind] at h
    exact absurd h (by simp)
  | some bal =>
    rw [hfind] at h
    simp only [] at h
    by_cases hshort : ((tbuy && decide (bal.b < sz)) || (!tbuy && decide (bal.a < sz))) = true
    · rw [if_pos hshort] at h
      simp only [Option.some.injEq, Prod.mk.injEq] at h
      rw [← h.2] at hsucc
      exact absurd hsucc (by simp)
    · rw [if_neg hshort] at h
      by_cases htb : tbuy = true
      · subst htb
        have hite : (if (true : Bool) = true
            then UserBalance.mk
              ((bal.a + (sz - (serverLimit s.book ⟨true, limit_px, sz, s.oid⟩).1)) % U64MOD)
              (bal.b - sz)
            else UserBalance.mk (bal.a - sz)
              ((bal.b + (sz - (serverLimit s.book ⟨true, limit_px, sz, s.oid⟩).1)) % U64MOD)) =
            UserBalance.mk
              ((bal.a + (sz - (serverLimit s.book ⟨true, limit_px, sz, s.oid⟩).1)) % U64MOD)
              (bal.b - sz) := rfl
        rw [hite] at h
        cases hsm : settleMakers true (serverLimit s.book ⟨true, limit_px, sz, s.oid⟩).2.1
            (assocInsert addr (UserBalance.mk
              ((bal.a + (sz - (serverLimit s.book ⟨true, limit_px, sz, s.oid⟩).1)) % U64MOD)
              (bal.b - sz)) s.balances) s.order_status with
        | none =>
          rw [hsm] at h
          exact absurd h (by simp)
        | some pair =>
          obtain ⟨balances2, order_status2⟩ := pair
          rw [hsm] at h
          simp only [Option.some.injEq, Prod.mk.injEq] at h
          obtain ⟨hs2, hresp⟩ := h
          refine ⟨⟨s.oid, sz, addr, sz - (serverLimit s.book ⟨true, limit_px, sz, s.oid⟩).1,
            (serverLimit s.book ⟨true, limit_px, sz, s.oid⟩).2.1⟩, by rw [← hresp], rfl, rfl, ?_⟩
          intro x bx hx
          have hbalmem := hbound (addr, bal) (assocFind_mem addr s.balances bal hfind)
          have hbound1 : ∀ p ∈ assocInsert addr (UserBalance.mk
              ((bal.a + (sz - (serverLimit s.book ⟨true, limit_px, sz, s.oid⟩).1)) % U64MOD)
              (bal.b - sz)) s.balances, p.2.a < U64MOD ∧ p.2.b < U64MOD := by
            intro p hp
            rcases assocInsert_mem _ _ _ p hp with h1 | h2
            · rw [h1]
              exact ⟨Nat.mod_lt _ U64MOD_pos, Nat.lt_of_le_of_lt (Nat.sub_le _ _) hbalmem.2⟩
            · exact hbound p h2
          by_cases hxa : x = addr
          · subst hxa
            have hbx : bal = bx := by
              rw [hx] at hfind
              exact (Option.some.inj hfind).symm
            obtain ⟨bx2, hfind2, hby, _⟩ := settleMakers_balances true _ _ _ _ _ hsm hbound1 x _
              (assocFind_insert_self x _ s.balances)
            obtain ⟨hba, hbb⟩ := hby rfl
            refine ⟨bx2, by rw [← hs2]; exact hfind2, ?_, ?_⟩
            · intro _
              constructor
              · rw [hba, if_pos rfl, ← hbx]
              · rw [hbb, if_pos rfl, ← hbx]
            · intro hf
              exact absurd hf (by simp)
          · obtain ⟨bx2, hfind2, hby, _⟩ := settleMakers_balances true _ _ _ _ _ hsm hbound1 x bx
              (by rw [assocFind_insert_ne x addr _ s.balances hxa]; exact hx)
            obtain ⟨hba, hbb⟩ := hby rfl
            refine ⟨bx2, by rw [← hs2]; exact hfind2, ?_, ?_⟩
            · intro _
              constructor
              · rw [hba, if_neg hxa]
              · rw [hbb, if_neg hxa, Nat.sub_zero]
            · intro hf
              exact absurd hf (by simp)
      · have htb2 : tbuy = false := by
          revert htb
          cases tbuy <;> simp
        subst htb2
        have hite : (if (false : Bool) = true
            then UserBalance.mk
              ((bal.a + (sz - (serverLimit s.book ⟨false, limit_px, sz, s.oid⟩).1)) % U64MOD)
              (bal.b - sz)
            else UserBalance.mk (bal.a - sz)
              ((bal.b + (sz - (serverLimit s.book ⟨false, limit_px, sz, s.oid⟩).1)) % U64MOD)) =
            UserBalance.mk (bal.a - sz)
              ((bal.b + (sz - (serverLimit s.book ⟨false, limit_px, sz, s.oid⟩).1)) % U64MOD) :=
          rfl
        rw [hite] at h
        cases hsm : settleMakers false (serverLimit s.book ⟨false, limit_px, sz, s.oid⟩).2.1
            (assocInsert addr (UserBalance.mk (bal.a - sz)
              ((bal.b + (sz - (serverLimit s.book ⟨false, limit_px, sz, s.oid⟩).1)) % U64MOD))
              s.balances) s.order_status with
        | none =>
          rw [hsm] at h
          exact absurd h (by simp)
        | some pair =>
          obtain ⟨balances2, order_status2⟩ := pair
          rw [hsm] at h
          simp only [Option.some.injEq, Prod.mk.injEq] at h
          obtain ⟨hs2, hresp⟩ := h
          refine ⟨⟨s.oid, sz, addr, sz - (serverLimit s.book ⟨false, limit_px, sz, s.oid⟩).1,
            (serverLimit s.book ⟨false, limit_px, sz, s.oid⟩).2.1⟩, by rw [← hresp], rfl, rfl, ?_⟩
          intro x bx hx
          have hbalmem := hbound (addr, bal) (assocFind_mem addr s.balances bal hfind)
          have hbound1 : ∀ p ∈ assocInsert addr (UserBalance.mk (bal.a - sz)
              ((bal.b + (sz - (serverLimit s.book ⟨false, limit_px, sz, s.oid⟩).1)) % U64MOD))
              s.balances, p.2.a < U64MOD ∧ p.2.b < U64MOD := by
            intro p hp
            rcases assocInsert_mem _ _ _ p hp with h1 | h2
            · rw [h1]
              exact ⟨Nat.lt_of_le_of_lt (Nat.sub_le _ _) hbalmem.1, Nat.mod_lt _ U64MOD_pos⟩
            · exact hbound p h2
          by_cases hxa : x = addr
          · subst hxa
            have hbx : bal = bx := by
              rw [hx] at hfind
              exact (Option.some.inj hfind).symm
            obtain ⟨bx2, hfind2, _, hbs⟩ := settleMakers_balances false _ _ _ _ _ hsm hbound1 x _
              (assocFind_insert_self x _ s.balances)
            obtain ⟨hbb, hba⟩ := hbs rfl
            refine ⟨bx2, by rw [← hs2]; exact hfind2, ?_, ?_⟩
            · intro hf
              exact absurd hf (by simp)
            · intro _
              constructor
              · rw [hbb, if_pos rfl, ← hbx]
              · rw [hba, if_pos rfl, ← hbx]
          · obtain ⟨bx2, hfind2, _, hbs⟩ := settleMakers_balances false _ _ _ _ _ hsm hbound1 x bx
              (by rw [assocFind_insert_ne x addr _ s.balances hxa]; exact hx)
            obtain ⟨hbb, hba⟩ := hbs rfl
            refine ⟨bx2, by rw [← hs2]; exact hfind2, ?_, ?_⟩
            · intro hf
              exact absurd hf (by simp)
            · intro _
              constructor
              · rw [hbb, if_neg hxa]
              · rw [hba, if_neg hxa, Nat.sub_zero]

/-- Witness for C5: account 1 (a 0, b 10) sends a buy of size 4 that fully
matches the resting sell of account 2; the taker pays 4 of b and gains 4 of a,
the maker is credited 4 of b. -/
theorem C5_settlement_amounts_witness :
    ((∀ p ∈ (⟨[(1, ⟨0, 10⟩), (2, ⟨10, 0⟩)], ⟨[], [(10, [⟨false, 10, 4, 0⟩])], [(0, 10)]⟩,
          [(0, ⟨0, 4, 2, 0, []⟩)], 1⟩ : SharedState).balances,
        p.2.a < U64MOD ∧ p.2.b < U64MOD) ∧
      place_order ⟨[(1, ⟨0, 10⟩), (2, ⟨10, 0⟩)], ⟨[], [(10, [⟨false, 10, 4, 0⟩])], [(0, 10)]⟩,
          [(0, ⟨0, 4, 2, 0, []⟩)], 1⟩ 1 true 10 4 =
        some (⟨[(1, ⟨4, 6⟩), (2, ⟨10, 4⟩)], ⟨[], [], [(0, 10)]⟩,
          [(0, ⟨0, 4, 2, 4, [⟨0, 1, 4⟩]⟩), (1, ⟨1, 4, 1, 4, [⟨0, 1, 4⟩]⟩)], 2⟩,
          ⟨true, some ⟨1, 4, 1, 4, [⟨0, 1, 4⟩]⟩⟩) ∧
      (⟨true, some ⟨1, 4, 1, 4, [⟨0, 1, 4⟩]⟩⟩ : PlaceOrderResponse).success = true) ∧
    ∃ fs, (⟨true, some ⟨1, 4, 1, 4, [⟨0, 1, 4⟩]⟩⟩ : PlaceOrderResponse).status = some fs ∧
      fs.filled_sz = 4 - (serverLimit ⟨[], [(10, [⟨false, 10, 4, 0⟩])], [(0, 10)]⟩
        ⟨true, 10, 4, (⟨[(1, ⟨0, 10⟩), (2, ⟨10, 0⟩)],
          ⟨[], [(10, [⟨false, 10, 4, 0⟩])], [(0, 10)]⟩,
          [(0, ⟨0, 4, 2, 0, []⟩)], 1⟩ : SharedState).oid⟩).1 ∧
      fs.fills = (serverLimit ⟨[], [(10, [⟨false, 10, 4, 0⟩])], [(0, 10)]⟩
        ⟨true, 10, 4, (⟨[(1, ⟨0, 10⟩), (2, ⟨10, 0⟩)],
          ⟨[], [(10, [⟨false, 10, 4, 0⟩])], [(0, 10)]⟩,
          [(0, ⟨0, 4, 2, 0, []⟩)], 1⟩ : SharedState).oid⟩).2.1 ∧
      ∀ x bx, assocFind x (⟨[(1, ⟨0, 10⟩), (2, ⟨10, 0⟩)],
          ⟨[], [(10, [⟨false, 10, 4, 0⟩])], [(0, 10)]⟩,
          [(0, ⟨0, 4, 2, 0, []⟩)], 1⟩ : SharedState).balances = some bx →
        ∃ bx2, assocFind x (⟨[(1, ⟨4, 6⟩), (2, ⟨10, 4⟩)], ⟨[], [], [(0, 10)]⟩,
          [(0, ⟨0, 4, 2, 4, [⟨0, 1, 4⟩]⟩), (1, ⟨1, 4, 1, 4, [⟨0, 1, 4⟩]⟩)], 2⟩ :
            SharedState).balances = some bx2 ∧
          (true = true →
            bx2.a = (if x = 1 then (bx.a + fs.filled_sz) % U64MOD else bx.a) ∧
            bx2.b = (bx.b - (if x = 1 then 4 else 0) +
              makerCredit (⟨[(1, ⟨0, 10⟩), (2, ⟨10, 0⟩)],
                ⟨[], [(10, [⟨false, 10, 4, 0⟩])], [(0, 10)]⟩,
                [(0, ⟨0, 4, 2, 0, []⟩)], 1⟩ : SharedState).order_status fs.fills x) %
                U64MOD) ∧
          (true = false →
            bx2.b = (if x = 1 then (bx.b + fs.filled_sz) % U64MOD else bx.b) ∧
            bx2.a = (bx.a - (if x = 1 then 4 else 0) +
              makerCredit (⟨[(1, ⟨0, 10⟩), (2, ⟨10, 0⟩)],
                ⟨[], [(10, [⟨false, 10, 4, 0⟩])], [(0, 10)]⟩,
                [(0, ⟨0, 4, 2, 0, []⟩)], 1⟩ : SharedState).order_status fs.fills x) %
                U64MOD) :=
  ⟨⟨by decide, by decide, by decide⟩,
    C5_settlement_amounts ⟨[(1, ⟨0, 10⟩), (2, ⟨10, 0⟩)],
      ⟨[], [(10, [⟨false, 10, 4, 0⟩])], [(0, 10)]⟩, [(0, ⟨0, 4, 2, 0, []⟩)], 1⟩ 1 true 10 4
      ⟨[(1, ⟨4, 6⟩), (2, ⟨10, 4⟩)], ⟨[], [], [(0, 10)]⟩,
        [(0, ⟨0, 4, 2, 4, [⟨0, 1, 4⟩]⟩), (1, ⟨1, 4, 1, 4, [⟨0, 1, 4⟩]⟩)], 2⟩
      ⟨true, some ⟨1, 4, 1, 4, [⟨0, 1, 4⟩]⟩⟩ (by decide) (by decide) (by decide)⟩

/-- Claim C2 is violated by the code at the partial-fill step: filling 3 units
against a level holding one maker of size 5 decrements the maker in place to
size 2 and returns an empty fill list — no fill of size 3 is recorded for the
partially consumed maker. (The complete-fill half of the claim holds: each
fully consumed maker is returned whole, carrying its full size.) src/server.rs
settles makers by iterating the returned fills, so the partial amount is never
credited. -/
theorem C2_partial_fill_not_emitted_bug :
    fill_at_price_level 3 [⟨true, 10, 5, 1⟩] = (0, [], [⟨true, 10, 2, 1⟩]) := by decide

/-! Coherence of the spec-modelled server sweep with the source sweep: the
remaining amount and the resulting side book agree; the two differ only in
what they report (OrderFill records, including the partial fill, versus the
drained maker Orders). This backs the hybrid serverLimit used for the server
claims. -/

theorem fill_rem_pos_empties (amount : Nat) (lvl : Level)
    (h : 0 < (fill_at_price_level amount lvl).1) :
    (fill_at_price_level amount lvl).2.2 = [] := by
  induction lvl generalizing amount with
  | nil => rfl
  | cons o rest ih =>
    by_cases hsz : o.sz ≤ amount
    · simp only [fill_at_price_level, hsz, ite_true] at h ⊢
      exact ih _ h
    · simp only [fill_at_price_level, hsz, ite_false] at h
      exact absurd h (by simp)

theorem fillLevelR_book_coheres (tid : Nat) (amount : Nat) (lvl : Level) :
    (fillLevelR tid amount lvl).1 = (fill_at_price_level amount lvl).1 ∧
    (fillLevelR tid amount lvl).2.2 = (fill_at_price_level amount lvl).2.2 := by
  induction lvl generalizing amount with
  | nil => exact ⟨rfl, rfl⟩
  | cons o rest ih =>
    by_cases h : o.sz ≤ amount
    · exact ⟨by simp [fillLevelR, fill_at_price_level, h, (ih (amount - o.sz)).1],
        by simp [fillLevelR, fill_at_price_level, h, (ih (amount - o.sz)).2]⟩
    · by_cases ha : 0 < amount
      · exact ⟨by simp [fillLevelR, fill_at_price_level, h, ha],
          by simp [fillLevelR, fill_at_price_level, h, ha]⟩
      · exact ⟨by simp [fillLevelR, fill_at_price_level, h, ha],
          by simp [fillLevelR, fill_at_price_level, h, ha]⟩

theorem sweepSideR_book_coheres (tid : Nat) (crosses : Nat → Bool) (ec : Bool)
    (side : List (Nat × Level)) (r : Nat) (res : Nat × List Order × List (Nat × Level))
    (h : sweepSide crosses ec r side = some res) :
    (sweepSideR tid crosses r side).1 = res.1 ∧
    (sweepSideR tid crosses r side).2.2 = res.2.2 := by
  induction side generalizing r res with
  | nil =>
    rw [sweepSide] at h
    split at h
    · exact absurd h (by simp)
    · obtain rfl : (r, ([] : List Order), ([] : List (Nat × Level))) = res :=
        Option.some.inj h
      exact ⟨rfl, rfl⟩
  | cons pl rest ih =>
    obtain ⟨px, lvl⟩ := pl
    have hco := fillLevelR_book_coheres tid r lvl
    by_cases hg : 0 < r ∧ crosses px = true
    · by_cases he : (fill_at_price_level r lvl).2.2 = []
      · simp only [sweepSide, hg, and_self, if_true, he, ite_true] at h
        cases hs : sweepSide crosses ec (fill_at_price_level r lvl).1 rest with
        | none => rw [hs] at h; exact absurd h (by simp)
        | some res2 =>
          rw [hs] at h
          obtain rfl : (res2.1, (fill_at_price_level r lvl).2.1 ++ res2.2.1, res2.2.2) = res := by
            obtain ⟨a, b, c⟩ := res2
            exact Option.some.inj h
          have heR : (fillLevelR tid r lvl).2.2 = [] := by rw [hco.2]; exact he
          have hihr := ih _ res2 (by rw [← hco.1] at hs; exact hs)
          constructor
          · simp only [sweepSideR, hg, and_self, if_true, heR, ite_true]
            exact hihr.1
          · simp only [sweepSideR, hg, and_self, if_true, heR, ite_true]
            exact hihr.2
      · simp only [sweepSide, hg, and_self, if_true, he, ite_false] at h
        obtain rfl : ((fill_at_price_level r lvl).1, (fill_at_price_level r lvl).2.1,
            (px, (fill_at_price_level r lvl).2.2) :: rest) = res := Option.some.inj h
        have heR : ¬ (fillLevelR tid r lvl).2.2 = [] := by rw [hco.2]; exact he
        constructor
        · simp only [sweepSideR, hg, and_self, if_true, heR, ite_false]
          exact hco.1
        · simp only [sweepSideR, hg, and_self, if_true, heR, ite_false]
          rw [hco.2]
    · simp only [sweepSide, hg, if_false] at h
      obtain rfl : (r, ([] : List Order), (px, lvl) :: rest) = res := Option.some.inj h
      constructor
      · simp [sweepSideR, hg]
      · simp [sweepSideR, hg]

/-! The unit tests of src/orderbook.rs, replayed against the embedding. -/

theorem sourceTest_bid_max :
    (((emptyBook.limit ⟨true, 10, 10, 1⟩).bind (fun r => r.2.limit ⟨true, 20, 10, 2⟩)).bind
        (fun r => r.2.limit ⟨true, 30, 10, 3⟩)).map
      (fun r => (r.2.bid_max, r.2.ask_min)) = some (30, U64MAX) := by decide

theorem sourceTest_ask_min :
    (((emptyBook.limit ⟨false, 10, 10, 1⟩).bind (fun r => r.2.limit ⟨false, 20, 10, 2⟩)).bind
        (fun r => r.2.limit ⟨false, 30, 10, 3⟩)).map
      (fun r => (r.2.bid_max, r.2.ask_min)) = some (0, 10) := by decide

theorem sourceTest_crossing_bid_max :
    ((((emptyBook.limit ⟨true, 10, 10, 1⟩).bind (fun r => r.2.limit ⟨true, 20, 10, 2⟩)).bind
        (fun r => r.2.limit ⟨true, 30, 10, 3⟩)).bind
        (fun r => r.2.limit ⟨false, 25, 10, 5⟩)).map
      (fun r => (r.2.bid_max, r.2.ask_min)) = some (20, U64MAX) := by decide

theorem sourceTest_crossing_ask_min :
    ((((emptyBook.limit ⟨false, 10, 10, 1⟩).bind (fun r => r.2.limit ⟨false, 20, 10, 2⟩)).bind
        (fun r => r.2.limit ⟨false, 30, 10, 3⟩)).bind
        (fun r => r.2.limit ⟨true, 25, 10, 5⟩)).map
      (fun r => (r.2.bid_max, r.2.ask_min)) = some (0, 20) := by decide

theorem sourceTest_resting_bid_ask :
    ((((emptyBook.limit ⟨true, 10, 10, 1⟩).bind (fun r => r.2.limit ⟨true, 20, 10, 2⟩)).bind
        (fun r => r.2.limit ⟨false, 30, 10, 3⟩)).bind
        (fun r => r.2.limit ⟨false, 25, 10, 5⟩)).map
      (fun r => (r.2.bid_max, r.2.ask_min)) = some (20, 25) := by decide

theorem sourceTest_fill_at_price_level :
    (fill_at_price_level 10 [⟨true, 10, 10, 1⟩, ⟨true, 10, 10, 2⟩]).1 = 0 ∧
    ((fill_at_price_level 10 [⟨true, 10, 10, 1⟩, ⟨true, 10, 10, 2⟩]).2.1.map Order.oid) =
      [1] := by
  constructor
  · decide
  · decide

end Clob
